import Mathlib

/-!
Verification development for the tstl container library.

The embedding below follows the TypeScript sources:
* `src/ts/src/std/List.ts` — doubly linked list (`std.List`), embedded at the
  pointer level: every `ListIterator` object allocated by the code becomes a
  node in an explicit heap, and the `begin_` / `end_` / `size_` fields of the
  container are embedded directly (`none` models a field that was never
  assigned, i.e. TypeScript `undefined`).
* `src/ts/std/TreeMap.ts` (+ `src/ts/std/base/tree/AtomicTree.ts`) — the
  unique-key ordered map.
* `src/src/std/base/iterators/SetIterator.ts` — the hash-bucket multimap
  (`std.UnorderedMultiMap`).

TypeScript `throw` is modelled with `Except`, where the error value carries the
state of the container at the moment of the throw, so that "no partial
mutation" is expressible.  A dereference of `null`/`undefined` (which would
raise a `TypeError` at run time) and non-terminating loops are modelled by
`Option`/`Except` failures driven by explicit fuel.
-/

set_option autoImplicit false


/-- Heap node corresponding to one `ListIterator` object: the iterator object
itself stores the `prev`/`next` references and the value (`null` is `none`;
the sentinel node has `value = none`). -/
structure LNode (α : Type) where
  prev : Option Nat
  next : Option Nat
  value : Option α
deriving DecidableEq

/-- The state of one `std.List` object.  `cid` is the object identity of the
container (used for the `get_source()` checks), `nodes` is the heap of all
`ListIterator` objects ever allocated for this container, and `begin_`,
`end_`, `size_` embed the three fields of the class (`none` = the field was
never assigned). -/
structure ListState (α : Type) where
  cid : Nat
  nodes : List (Nat × LNode α)
  fresh : Nat
  begin_ : Option Nat
  end_ : Option Nat
  size_ : Option Int
deriving DecidableEq

/-- An iterator handle as seen by a caller: the source container's identity
plus the node it points at. -/
structure Iter where
  src : Nat
  node : Nat
deriving DecidableEq

/-- Errors a `List` operation can produce: the `InvalidArgument` exception
thrown by the source ("Parametric iterator is not this container's own."),
or a dereference of `null`/`undefined`. -/
inductive LErr where
  | invalidArgument
  | nullDeref
deriving DecidableEq

namespace TSList

variable {α : Type} [DecidableEq α]

/-- Read a node from the heap. -/
def hget (h : List (Nat × LNode α)) (i : Nat) : Option (LNode α) :=
  (h.find? (fun p => p.1 = i)).map (fun p => p.2)

/-- Overwrite a node in the heap. -/
def hset (h : List (Nat × LNode α)) (i : Nat) (nd : LNode α) : List (Nat × LNode α) :=
  h.map (fun p => if p.1 = i then (i, nd) else p)

/-- `it.setPrev(p)` on node `i`. -/
def setPrev (h : List (Nat × LNode α)) (i : Nat) (p : Option Nat) : List (Nat × LNode α) :=
  match hget h i with
  | none => h
  | some nd => hset h i { nd with prev := p }

/-- `it.setNext(n)` on node `i`. -/
def setNext (h : List (Nat × LNode α)) (i : Nat) (n : Option Nat) : List (Nat × LNode α) :=
  match hget h i with
  | none => h
  | some nd => hset h i { nd with next := n }

/-- `new ListIterator(this, prev, next, value)`: allocate a node, return its id. -/
def alloc (s : ListState α) (p n : Option Nat) (v : Option α) : ListState α × Nat :=
  ({ s with nodes := s.nodes ++ [(s.fresh, ⟨p, n, v⟩)], fresh := s.fresh + 1 }, s.fresh)

/-- `next` pointer of node `i`. -/
def nxt (s : ListState α) (i : Nat) : Option Nat :=
  (hget s.nodes i).bind (fun nd => nd.next)

/-- `prev` pointer of node `i`. -/
def prv (s : ListState α) (i : Nat) : Option Nat :=
  (hget s.nodes i).bind (fun nd => nd.prev)

/-- `value` of node `i`. -/
def valOf (s : ListState α) (i : Nat) : Option α :=
  (hget s.nodes i).bind (fun nd => nd.value)

/-- A freshly constructed (not yet initialised) `List` object: no fields set. -/
def initList (cid : Nat) : ListState α :=
  ⟨cid, [], 0, none, none, none⟩

/-- `List.prototype.clear`: build one self-linked sentinel, point `begin_` and
`end_` at it and zero `size_`. -/
def clear (s : ListState α) : ListState α :=
  let (s1, it) := alloc s none none none
  let h := setNext (setPrev s1.nodes it (some it)) it (some it)
  { s1 with nodes := h, begin_ := some it, end_ := some it, size_ := some 0 }

/-- `Container.prototype.empty` (base class, not under src): `size() == 0`.
An undefined `size_` compares unequal to `0` in JS, hence `none ↦ false`. -/
def isEmpty (s : ListState α) : Bool :=
  s.size_ = some 0

/-- `List.prototype.push_front`.  Note that the code never assigns a `prev`
link to the freshly constructed `item` when the list is non-empty, and when it
was empty the new sentinel points at `item` but `item.prev` stays `null`. -/
def push_front (s : ListState α) (v : α) : Option (ListState α) := do
  let b ← s.begin_
  let e ← s.end_
  let sz ← s.size_
  -- let item = new ListIterator(this, null, this.begin_, val);
  let (s1, item) := alloc s none (some b) (some v)
  -- this.begin_.setPrev(item);
  let s2 := { s1 with nodes := setPrev s1.nodes b (some item) }
  if sz = 0 then
    -- this.end_ = new ListIterator(this, item, item, null); item.setNext(this.end_);
    let (s3, e2) := alloc s2 (some item) (some item) none
    let s4 := { s3 with nodes := setNext s3.nodes item (some e2) }
    pure { s4 with begin_ := some item, end_ := some e2, size_ := some (sz + 1) }
  else
    -- this.end_.setNext(item);
    let s3 := { s2 with nodes := setNext s2.nodes e (some item) }
    pure { s3 with begin_ := some item, size_ := some (sz + 1) }

/-- `List.prototype.push_back`. -/
def push_back (s : ListState α) (v : α) : Option (ListState α) := do
  let e ← s.end_
  let sz ← s.size_
  -- let prev = this.end_.prev();
  let p ← prv s e
  -- let item = new ListIterator(this, this.end_.prev(), this.end_, val);
  let (s1, item) := alloc s (some p) (some e) (some v)
  -- prev.setNext(item); this.end_.setPrev(item);
  let s2 := { s1 with nodes := setPrev (setNext s1.nodes p (some item)) e (some item) }
  if sz = 0 then
    -- this.begin_ = item; item.setPrev(this.end_);
    pure { s2 with nodes := setPrev s2.nodes item (some e),
                   begin_ := some item, size_ := some (sz + 1) }
  else
    pure { s2 with size_ := some (sz + 1) }

/-- Loop body of `insertByRepeatingVal`: `size` rounds of
`item = new ListIterator(this, prev, null, val); prev.setNext(item); prev = item`,
remembering the first constructed item.  Returns (state, last `prev`, `first`). -/
def repLoop (v : α) : ListState α → Nat → Option Nat → Nat → ListState α × Nat × Option Nat
  | s, prev, first, 0 => (s, prev, first)
  | s, prev, first, Nat.succ k =>
    let (s1, item) := alloc s (some prev) none (some v)
    let s2 := { s1 with nodes := setNext s1.nodes prev (some item) }
    repLoop v s2 item (first.orElse (fun _ => some item)) k

/-- `List.prototype.insertByRepeatingVal(position, size, val)`.  The foreign
handle check is the first statement of the body, so the state carried by the
error is the untouched input state. -/
def insertByRepeatingVal (s : ListState α) (pos : Iter) (n : Nat) (v : α) :
    Except (LErr × ListState α) (ListState α × Option Nat) :=
  -- if (this != position.get_source()) throw new InvalidArgument(...);
  if s.cid ≠ pos.src then .error (.invalidArgument, s)
  else
    -- let prev = position.prev();
    match prv s pos.node with
    | none =>
      -- a null `prev` makes the later `prev.setNext(...)` throw a TypeError
      .error (.nullDeref, s)
    | some prev0 =>
      let (s1, lastPrev, first) := repLoop v s prev0 none n
      -- if (this.empty() == true || first.prev().equals(this.end()) == true) this.begin_ = first;
      let beginStep : Except (LErr × ListState α) (ListState α) :=
        if isEmpty s1 then .ok { s1 with begin_ := first }
        else
          match first with
          | none => .error (.nullDeref, s1)   -- first.prev() on null
          | some f =>
            match prv s1 f with
            | none => .error (.nullDeref, s1)
            | some fp => if s1.end_ = some fp then .ok { s1 with begin_ := first } else .ok s1
      match beginStep with
      | .error err => .error err
      | .ok s2 =>
        -- prev.setNext(position); position.setPrev(prev);
        let s3 := { s2 with
          nodes := setPrev (setNext s2.nodes lastPrev (some pos.node)) pos.node (some lastPrev),
          size_ := s2.size_.map (fun z => z + (n : Int)) }
        .ok (s3, first)

/-- Loop body of `insert_by_range`: one iteration per source element (the
values of `[begin, end)` are passed as a list).  Tracks `prev` (which starts
as `position.prev()` and may be `null`) and `first`. -/
def rangeLoop : ListState α → Option Nat → Option Nat → List α → ListState α × Option Nat × Option Nat
  | s, prev, first, [] => (s, prev, first)
  | s, prev, first, v :: rest =>
    -- let item = new ListIterator(this, prev, null, it.value);
    let (s1, item) := alloc s prev none (some v)
    -- if (prev != null) prev.setNext(item);
    let s2 :=
      match prev with
      | none => s1
      | some p => { s1 with nodes := setNext s1.nodes p (some item) }
    rangeLoop s2 (some item) (first.orElse (fun _ => some item)) rest

/-- `List.prototype.insert_by_range(position, begin, end)`, with the values of
the source range `[begin, end)` passed as a list. -/
def insert_by_range (s : ListState α) (pos : Iter) (vals : List α) :
    Except (LErr × ListState α) (ListState α × Option Nat) :=
  -- if (this != position.get_source()) throw new InvalidArgument(...);
  if s.cid ≠ pos.src then .error (.invalidArgument, s)
  else
    match hget s.nodes pos.node with
    | none => .error (.nullDeref, s)
    | some pnode =>
      let (s1, prevFin, first) := rangeLoop s pnode.prev none vals
      -- if (this.empty() == true) this.begin_ = first;
      let s2 := if isEmpty s1 then { s1 with begin_ := first } else s1
      -- prev.setNext(position); position.setPrev(prev);
      match prevFin with
      | none => .error (.nullDeref, s2)
      | some p =>
        let s3 := { s2 with
          nodes := setPrev (setNext s2.nodes p (some pos.node)) pos.node (some p),
          size_ := s2.size_.map (fun z => z + (vals.length : Int)) }
        .ok (s3, first)

/-- The size-counting walk of `erase_by_range`:
`for (let it = begin; it.equals(end) == false; it = it.next()) size++`. -/
def countWalk (s : ListState α) (stop : Nat) : Nat → Nat → Option Nat
  | _, 0 => none
  | i, Nat.succ fuel =>
    if i = stop then some 0
    else
      match nxt s i with
      | none => none
      | some j => (countWalk s stop j fuel).map (fun c => c + 1)

/-- `List.prototype.erase_by_range(begin, end)`. -/
def erase_by_range (s : ListState α) (b e : Iter) :
    Except (LErr × ListState α) (ListState α × Nat) :=
  -- if (this != begin.get_source() || begin.get_source() != end.get_source()) throw ...
  if s.cid ≠ b.src ∨ b.src ≠ e.src then .error (.invalidArgument, s)
  else
    match countWalk s e.node b.node (s.nodes.length + 1) with
    | none => .error (.nullDeref, s)
    | some sizeRemoved =>
      match prv s b.node with
      | none => .error (.nullDeref, s)
      | some p =>
        -- prev.setNext(end); end.setPrev(prev);
        let h := setPrev (setNext s.nodes p (some e.node)) e.node (some p)
        let newSize := s.size_.map (fun z => z - (sizeRemoved : Int))
        let s1 := { s with nodes := h, size_ := newSize }
        -- if (this.size_ == 0) this.begin_ = end;
        let s2 := if newSize = some 0 then { s1 with begin_ := some e.node } else s1
        .ok (s2, e.node)

/-- `List.prototype.erase_by_iterator(it)` = `erase_by_range(it, it.next())`. -/
def erase_by_iterator (s : ListState α) (i : Nat) :
    Except (LErr × ListState α) (ListState α × Nat) :=
  match nxt s i with
  | none => .error (.nullDeref, s)
  | some j => erase_by_range s ⟨s.cid, i⟩ ⟨s.cid, j⟩

/-- `List.prototype.assign(n, val)` — the count-and-value overload.  The body
of `assign` only contains the `par1 instanceof Iterator && par2 instanceof
Iterator` branch, so a numeric first argument falls through and nothing at all
happens. -/
def assignNumVal (s : ListState α) (n : Nat) (v : α) : ListState α :=
  let _ := n
  let _ := v
  s

/-- The fill constructor `new List(n, val)`: the base `Container` constructor
does nothing (modelled from the spec, which gives construction no behaviour of
its own), the dispatcher sees `typeof args[0] == "number"` and calls
`this.assign(size, val)` without ever calling `clear()`. -/
def constructorFill (cid : Nat) (n : Nat) (v : α) : ListState α :=
  assignNumVal (initList cid) n v

/-- Chain-building loop of the iterator overload of `assign`: one item per
source position, the position `it == end` contributing the terminal item with
a `null` value.  Returns the state and the id of the terminal item. -/
def assignLoop : ListState α → Option Nat → List α → ListState α × Nat
  | s, prev, [] =>
    -- it == end: item = new ListIterator(this, prev, null, null); end_ = item
    let (s1, item) := alloc s prev none none
    let s2 :=
      match prev with
      | none => s1
      | some p => { s1 with nodes := setNext s1.nodes p (some item) }
    (s2, item)
  | s, prev, v :: rest =>
    let (s1, item) := alloc s prev none (some v)
    let s2 :=
      match prev with
      | none => s1
      | some p => { s1 with nodes := setNext s1.nodes p (some item) }
    assignLoop s2 (some item) rest

/-- `List.prototype.assign(begin, end)` with the values of `[begin, end)`
passed as a list.  For an empty range the loop's `it == begin` test shadows
the `it == end` break on the first turn, after which the walk has stepped past
`end` and the loop never terminates (`none`).  Note that `size_` is never
reset: the element count is added to whatever `size_` already held. -/
def assign (s : ListState α) (vals : List α) : Option (ListState α) :=
  match vals with
  | [] => none
  | _ :: _ =>
    let firstId := s.fresh
    let (s1, endId) := assignLoop s none vals
    some { s1 with begin_ := some firstId, end_ := some endId,
                   size_ := s.size_.map (fun z => z + (vals.length : Int)) }

/-- Advance of the inner `merge` loop:
`while (!it.equals(this.end()) && compare(it.value, begin.value)) it = it.next()`. -/
def mergeAdvance (s : ListState α) (cmp : α → α → Bool) (bval : α) :
    Nat → Nat → Option Nat
  | 0, _ => none
  | Nat.succ fuel, it =>
    if s.end_ = some it then some it
    else
      match valOf s it with
      | none => none
      | some v =>
        if cmp v bval then
          match nxt s it with
          | none => none
          | some j => mergeAdvance s cmp bval fuel j
        else some it

/-- One `splice(it, obj, begin)` step of `merge` followed by the next loop
turn: insert `begin`'s value before `it` in `this`, then erase `begin` from
`obj`. -/
def mergeLoop (cmp : α → α → Bool) :
    Nat → ListState α → ListState α → Nat → Option (ListState α × ListState α)
  | 0, _, _, _ => none
  | Nat.succ fuel, sThis, sObj, it =>
    -- while (obj.empty() == false)
    if isEmpty sObj then some (sThis, sObj)
    else do
      let b ← sObj.begin_
      let bval ← valOf sObj b
      let it2 ← mergeAdvance sThis cmp bval (sThis.nodes.length + 1) it
      -- this.splice(it, obj, begin):
      --   this.insert(position, begin, begin.next()); obj.erase(begin, begin.next());
      let (sThis2, _) ← (insert_by_range sThis ⟨sThis.cid, it2⟩ [bval]).toOption
      let bn ← nxt sObj b
      let (sObj2, _) ← (erase_by_range sObj ⟨sObj.cid, b⟩ ⟨sObj.cid, bn⟩).toOption
      mergeLoop cmp fuel sThis2 sObj2 it2

/-- `List.prototype.merge(obj, compare)`. -/
def merge (sThis sObj : ListState α) (cmp : α → α → Bool) :
    Option (ListState α × ListState α) :=
  -- if (this == obj) return;
  if sThis.cid = sObj.cid then some (sThis, sObj)
  else do
    let it ← sThis.begin_
    mergeLoop cmp (sObj.nodes.length + 1) sThis sObj it

/-- Loop of `unique(binary_pred)`.  The body tests
`std.equals(it.value, it.prev().value)` — the structural-equality default —
regardless of the `binary_pred` that was passed in. -/
def uniqueLoop : Nat → ListState α → Nat → Option (ListState α)
  | 0, _, _ => none
  | Nat.succ fuel, s, it =>
    if s.end_ = some it then some s
    else do
      let v ← valOf s it
      let p ← prv s it
      let pv ← valOf s p
      if v = pv then
        let (s1, nextIt) ← (erase_by_iterator s it).toOption
        uniqueLoop fuel s1 nextIt
      else do
        let j ← nxt s it
        uniqueLoop fuel s j

/-- `List.prototype.unique(binary_pred)`.  `binary_pred` is accepted but the
loop body ignores it (it calls `std.equals` directly). -/
def unique (s : ListState α) (binary_pred : α → α → Bool) : Option (ListState α) := do
  let _ := binary_pred
  let b ← s.begin_
  let start ← nxt s b
  uniqueLoop (s.nodes.length + 1) s start

/-- Walk `next` links from node `i`, collecting values, stopping at the `end_`
sentinel; this is the observable element sequence of `begin() .. end()`
iteration.  `none` on a broken chain or exhausted fuel. -/
def seqFrom (s : ListState α) : Nat → Nat → Option (List α)
  | 0, _ => none
  | Nat.succ fuel, i =>
    if s.end_ = some i then some []
    else
      match hget s.nodes i with
      | none => none
      | some nd =>
        match nd.value, nd.next with
        | some v, some j => (seqFrom s fuel j).map (fun l => v :: l)
        | _, _ => none

/-- Observable element sequence of the list (iteration from `begin()` to
`end()`). -/
def toSeq (s : ListState α) : Option (List α) :=
  s.begin_.bind (fun b => seqFrom s (s.nodes.length + 1) b)

/-- Walk `k` `next`-steps from node `i`, returning the `k + 1` visited ids. -/
def walkN (s : ListState α) : Nat → Nat → Option (List Nat)
  | i, 0 => some [i]
  | i, Nat.succ k =>
    match nxt s i with
    | none => none
    | some j => (walkN s j k).map (fun l => i :: l)

/-- The circular-chain invariant claimed for the list: starting at the
sentinel, `size + 1` `next`-steps come back to the sentinel (so
`sentinel.next` is the first real node — or the sentinel itself when empty —
and `sentinel.prev` the last), and around the cycle every node satisfies
`node.next.prev == node`. -/
def chainOk (s : ListState α) : Bool :=
  match s.end_, s.size_ with
  | some e, some sz =>
    if sz < 0 then false
    else
      match walkN s e sz.toNat with
      | none => false
      | some ids =>
        (nxt s (ids.getLastD e) == some e) &&
        ids.all (fun i =>
          ((nxt s i).bind (fun j => prv s j) == some i))
  | _, _ => false

/-- Build a list by `clear()` followed by `push_back` of each value. -/
def ofValues (cid : Nat) (vals : List α) : Option (ListState α) :=
  vals.foldlM push_back (clear (initList cid))

/-- Stable insertion step of the modelled sort utility: `a` is placed after
every element that does not go strictly after it. -/
def insSorted (a : Int) : List Int → List Int
  | [] => [a]
  | b :: l => if a < b then a :: b :: l else b :: insSorted a l

/-- Modelled from the spec: the external generic sort utility (`std.sort`,
outside this core, §1/§4.1) — a stable sort of the copied values under the
algorithm's own default comparator `std.less`.  Implemented as a stable
insertion sort. -/
def sortAlg (l : List Int) : List Int :=
  l.foldl (fun acc a => insSorted a acc) []

/-- `List.prototype.sort(compare)`: copy `[begin, end)` into a vector, call
the global `sort(vector.begin(), vector.end())` — note: without passing
`compare`, so the utility runs under its default `std.less` — and `assign`
the result back. -/
def sort (s : ListState Int) (compare : Int → Int → Bool) : Option (ListState Int) := do
  let _ := compare
  let seq ← toSeq s
  assign s (sortAlg seq)

end TSList

/-! ### TreeMap (`src/ts/std/TreeMap.ts`)

The `RB-Tree+` (`base.tree.PairTree` / `XTree`) and the base
`MapContainer.insert(hint, pair)` are not under src; they are modelled from
the spec (§4.3, §4.5), with the descent of `find` taken from
`AtomicTree.findByVal` (which is under src and implements the same search
for set containers).  Keys and mapped values are instantiated at `Int`
(`std.less` / `std.equals` are `<` / `=` on numbers). -/

/-- A tree node of the ordered index; the payload is the id of the element
(the `MapIterator` it stores a handle to). -/
inductive XTree where
  | nil : XTree
  | node : XTree → Nat → XTree → XTree
deriving DecidableEq

/-- One element of the map's element list: a stable node id plus the
key/value pair it stores. -/
structure TMElem where
  id : Nat
  key : Int
  val : Int
deriving DecidableEq

/-- The state of a `std.TreeMap`: the element list (`this.data`, in iteration
order) and the ordered index (`this.tree`). -/
structure TreeMapState where
  data : List TMElem
  tree : XTree
  fresh : Nat
deriving DecidableEq

namespace TreeMap

/-- In-order element ids of the tree. -/
def elemsT : XTree → List Nat
  | .nil => []
  | .node l i r => elemsT l ++ i :: elemsT r

/-- The key projection `node.value.first` of the handle with id `i`. -/
def keyOfId (s : TreeMapState) (i : Nat) : Int :=
  (((s.data.find? (fun e => e.id = i)).map (fun e => e.key))).getD 0

/-- The tree-search descent (from `AtomicTree.findByVal`, under src, and spec
§4.3): stop on key equivalence, go left on strictly-less, right otherwise,
and return the last visited node when the child to descend into is `null`.
Returns `none` only for the empty tree. -/
def tfind (κ : Nat → Int) : XTree → Int → Option Nat
  | .nil, _ => none
  | .node l i r, k =>
    if k = κ i then some i
    else if k < κ i then
      match l with
      | .nil => some i
      | .node l2 j r2 => tfind κ (.node l2 j r2) k
    else
      match r with
      | .nil => some i
      | .node l2 j r2 => tfind κ (.node l2 j r2) k

/-- Modelled from the spec (§4.3 `insert(handle)`): locate the leaf position
by the same descent and attach a new tree node there.  The rebalancing
rotations/recolorings are omitted — they restore height only and do not
affect the binary-search ordering that `find` relies on. -/
def bstInsert (κ : Nat → Int) : XTree → Nat → XTree
  | .nil, j => .node .nil j .nil
  | .node l i r, j =>
    if κ j < κ i then .node (bstInsert κ l j) i r else .node l i (bstInsert κ r j)

/-- Binary-search-tree ordering invariant of the index. -/
def bstOk (κ : Nat → Int) : XTree → Bool
  | .nil => true
  | .node l i r =>
    (elemsT l).all (fun j => κ j < κ i) &&
    (elemsT r).all (fun j => κ i < κ j) &&
    bstOk κ l && bstOk κ r

/-- `it.next()` of the handle at element id `i`: the id of the next element
of the data list, `none` meaning `end()`. -/
def nextIter : List TMElem → Nat → Option Nat
  | [], _ => none
  | e :: rest, i =>
    if e.id = i then (rest.head?).map (fun e2 => e2.id) else nextIter rest i

/-- `TreeMap.prototype.find(key)`: `end()` (`none`) unless the descent lands
on a node whose projected key equals `key`. -/
def find (s : TreeMapState) (k : Int) : Option Nat :=
  match tfind (keyOfId s) s.tree k with
  | none => none
  | some i => if keyOfId s i = k then some i else none

/-- `TreeMap.prototype.lowerBound(key)`. -/
def lowerBound (s : TreeMapState) (k : Int) : Option Nat :=
  match tfind (keyOfId s) s.tree k with
  | none => none
  | some i => if keyOfId s i < k then nextIter s.data i else some i

/-- `TreeMap.prototype.upperBound(key)`. -/
def upperBound (s : TreeMapState) (k : Int) : Option Nat :=
  match tfind (keyOfId s) s.tree k with
  | none => none
  | some i =>
    if ¬ keyOfId s i = k ∧ ¬ keyOfId s i < k then some i else nextIter s.data i

/-- `TreeMap.prototype.equalRange(key)` = `(lowerBound(key), upperBound(key))`. -/
def equalRange (s : TreeMapState) (k : Int) : Option Nat × Option Nat :=
  (lowerBound s k, upperBound s k)

/-- Insert an element in front of the element with id `i` of the list. -/
def insertBeforeId (i : Nat) (e : TMElem) : List TMElem → List TMElem
  | [] => [e]
  | x :: rest => if x.id = i then e :: x :: rest else x :: insertBeforeId i e rest

/-- Insert an element in front of position `pos` (`none` = `end()`). -/
def insertBeforePos (l : List TMElem) (pos : Option Nat) (e : TMElem) : List TMElem :=
  match pos with
  | none => l ++ [e]
  | some i => insertBeforeId i e l

/-- Modelled from the spec (§4.5): `this.insert(it, pair)` on the base
`MapContainer` splices a new node into the element list immediately before
`it` and then registers the new handle in the index (`handleInsert`, which
for `TreeMap` is `this.tree.insert(item)`). -/
def insertAt (s : TreeMapState) (pos : Option Nat) (k v : Int) :
    TreeMapState × (Option Nat × Bool) :=
  let e : TMElem := ⟨s.fresh, k, v⟩
  let data2 := insertBeforePos s.data pos e
  let s1 : TreeMapState := ⟨data2, s.tree, s.fresh + 1⟩
  let tree2 := bstInsert (keyOfId s1) s.tree s.fresh
  (⟨data2, tree2, s.fresh + 1⟩, (some s.fresh, true))

/-- `TreeMap.prototype.insertByPair(pair)`. -/
def insertByPair (s : TreeMapState) (k v : Int) : TreeMapState × (Option Nat × Bool) :=
  match tfind (keyOfId s) s.tree k with
  | none => insertAt s none k v
  | some i =>
    -- if (node != null && std.equals(node.value.first, pair.first)) return (node.value, false)
    if keyOfId s i = k then (s, (some i, false))
    else if keyOfId s i < k then insertAt s (nextIter s.data i) k v
    else insertAt s (some i) k v

/-- Element ids of the data list. -/
def idsOf (s : TreeMapState) : List Nat :=
  s.data.map (fun e => e.id)

/-- Well-formedness of a unique-keyed tree map state: keys strictly sorted in
list order, distinct ids, the index holding exactly the live ids, and the
binary-search ordering invariant. -/
def WF (s : TreeMapState) : Prop :=
  (s.data.map (fun e => e.key)).Pairwise (fun a b => a < b) ∧
  (idsOf s).Nodup ∧
  (∀ i ∈ elemsT s.tree, i ∈ idsOf s) ∧
  (∀ i ∈ idsOf s, i ∈ elemsT s.tree) ∧
  bstOk (keyOfId s) s.tree = true

instance (s : TreeMapState) : Decidable (WF s) := by
  unfold WF
  infer_instance

/-- The empty map. -/
def emptyTM : TreeMapState := ⟨[], .nil, 0⟩

/-- Build a map by repeated `insert(key, value)`. -/
def ofPairs (l : List (Int × Int)) : TreeMapState :=
  l.foldl (fun s kv => (insertByPair s kv.1 kv.2).1) emptyTM

/-- Reference form of the claim for `lowerBound`: the first element of the
data list whose key is not ordered before `k`. -/
def specLowerBound (s : TreeMapState) (k : Int) : Option Nat :=
  (s.data.find? (fun e => k ≤ e.key)).map (fun e => e.id)

/-- Reference form of the claim for `upperBound`: the first element of the
data list whose key goes strictly after `k`. -/
def specUpperBound (s : TreeMapState) (k : Int) : Option Nat :=
  (s.data.find? (fun e => k < e.key)).map (fun e => e.id)

/-- Insertion of a pair at its ordered position in the (key, value) sequence:
after every key that is less than `k`. -/
def sortedInsertKV (k v : Int) : List (Int × Int) → List (Int × Int)
  | [] => [(k, v)]
  | (k0, v0) :: rest =>
    if k0 < k then (k0, v0) :: sortedInsertKV k v rest else (k, v) :: (k0, v0) :: rest

/-- The observable (key, value) sequence of the map. -/
def kvSeq (s : TreeMapState) : List (Int × Int) :=
  s.data.map (fun e => (e.key, e.val))

/-- The claim's worked example: a map built by inserting keys `5, 3, 8, 1`. -/
def exMap : TreeMapState :=
  ofPairs [(5, 50), (3, 30), (8, 80), (1, 10)]

end TreeMap

/-! ### UnorderedMultiMap (`src/src/std/base/iterators/SetIterator.ts`)

`constructHashGroup`, `reconstructHashGroup`, `find`, `insertByPair`,
`handleInsert`, `handleErase` and `hashIndex` are under src.  The base
`MapContainer` store plumbing, `base.Hash.code` and the policy constants
`MIN_SIZE` / `RATIO` are not; they are modelled from the spec (§4.4, §4.5,
§3).  Keys and values are instantiated at `Int`. -/

namespace UMultiMap

/-- Modelled from the spec: the fixed policy constant `MIN_SIZE` (§3: "RATIO_MAX
and MIN_SIZE are fixed policy constants").  Its numeric value is not under
src; it is chosen consistent with §5's requirement that every mutation runs
to completion (a larger minimum would make `handleInsert` and
`reconstructHashGroup` recurse into each other forever on small maps). -/
def MIN_SIZE : Nat := 2

/-- Modelled from the spec: the fixed policy constant `RATIO` governing the
bucket-count-to-size ratio used when (re)building the table. -/
def Ratio : Nat := 2

/-- Modelled from the spec: `hash(key)` over `Int` keys (`base.Hash.code`). -/
def hashCode (k : Int) : Nat := k.natAbs

/-- One element node ever created for the multimap; erased nodes stay in this
table (as the underlying objects do on the JS heap), so a stale handle still
projects a key. -/
structure UMElem where
  id : Nat
  key : Int
  val : Int
deriving DecidableEq

/-- The state of an `UnorderedMultiMap`: `nodes` is every element object ever
created, `data` the ids of the live elements in list order, `buckets` the
hash group (each bucket a list of handles = ids). -/
structure UMM where
  nodes : List UMElem
  data : List Nat
  buckets : List (List Nat)
  fresh : Nat
deriving DecidableEq

/-- `it.first` — the projected key of the handle with id `i`. -/
def keyOf (s : UMM) (i : Nat) : Int :=
  (((s.nodes.find? (fun e => e.id = i)).map (fun e => e.key))).getD 0

/-- `hashIndex(val) = base.Hash.code(val) % this.hashGroup.size()`. -/
def hashIndex (s : UMM) (k : Int) : Nat :=
  hashCode k % s.buckets.length

/-- `constructHashGroup(size)`: clamp `size` up to `MIN_SIZE`, then build that
many empty buckets. -/
def constructHashGroup (s : UMM) (sz : Int) : UMM :=
  let n : Nat := if sz < (MIN_SIZE : Int) then MIN_SIZE else sz.toNat
  { s with buckets := List.replicate n [] }

/-- The final statement of `handleInsert`:
`this.hashGroup.at(this.hashIndex(it.first)).pushBack(it)`. -/
def pushToBucket (s : UMM) (i : Nat) : UMM :=
  let idx := hashIndex s (keyOf s i)
  { s with buckets := s.buckets.set idx ((s.buckets.getD idx []) ++ [i]) }

mutual

/-- `handleInsert(it)`: if the table is oversized (`hashGroup.size() >
size() * 2`) reconstruct it first, then append the handle to its bucket.
`fuel` bounds the mutual recursion with `reconstructHashGroup` (which
re-inserts every element); a `none` result models non-termination. -/
def handleInsert : Nat → UMM → Nat → Option UMM
  | 0, _, _ => none
  | Nat.succ fuel, s, i =>
    if 2 * s.data.length < s.buckets.length then
      (reconstructHashGroup fuel s (-1)).map (fun s1 => pushToBucket s1 i)
    else some (pushToBucket s i)

/-- `reconstructHashGroup(size)`: default the size to `size() * RATIO`,
rebuild the buckets from scratch, then `handleInsert` every live element in
iteration order. -/
def reconstructHashGroup : Nat → UMM → Int → Option UMM
  | 0, _, _ => none
  | Nat.succ fuel, s, szArg =>
    let sz : Int := if szArg = -1 then ((s.data.length * Ratio : Nat) : Int) else szArg
    let s1 := constructHashGroup s sz
    placeAll fuel s1 s1.data

/-- The re-insertion loop of `reconstructHashGroup`. -/
def placeAll : Nat → UMM → List Nat → Option UMM
  | _, s, [] => some s
  | 0, _, _ :: _ => none
  | Nat.succ fuel, s, i :: rest =>
    (handleInsert fuel s i).bind (fun s1 => placeAll fuel s1 rest)

end

/-- `insertByPair(pair)`: append a new node to the element list
(`this.data.insert(this.data.end(), pair)`), then `handleInsert` its handle. -/
def insertByPair (fuel : Nat) (s : UMM) (k v : Int) : Option (UMM × Nat) :=
  let i := s.fresh
  let s1 : UMM := { s with nodes := s.nodes ++ [⟨i, k, v⟩],
                           data := s.data ++ [i], fresh := i + 1 }
  (handleInsert fuel s1 i).map (fun s2 => (s2, i))

/-- The bucket scan of `handleErase`: erase the first handle whose key equals
`k` (`std.equals(it.first, hashVector.at(i).first)`), then break. -/
def eraseBucketFirst (s : UMM) (k : Int) : List Nat → List Nat
  | [] => []
  | j :: rest => if keyOf s j = k then rest else j :: eraseBucketFirst s k rest

/-- `handleErase(it)`: in the bucket of `it.first`, remove the first handle
with an equal key. -/
def handleErase (s : UMM) (i : Nat) : UMM :=
  let k := keyOf s i
  let idx := hashIndex s k
  { s with buckets := s.buckets.set idx (eraseBucketFirst s k (s.buckets.getD idx [])) }

/-- Modelled from the spec (§4.5): `erase(position)` removes the node from
the store first, then removes the matching entry from the index
(`handleErase`). -/
def erase (s : UMM) (i : Nat) : UMM :=
  handleErase { s with data := s.data.erase i } i

/-- `find(key)`: linear scan of the key's bucket for a structurally equal
key; `end()` (= `none`) when the scan fails. -/
def find (s : UMM) (k : Int) : Option Nat :=
  (s.buckets.getD (hashIndex s k) []).find? (fun j => keyOf s j = k)

/-- A default-constructed multimap: `super(); this.constructHashGroup();`. -/
def emptyUMM : UMM :=
  constructHashGroup ⟨[], [], [], 0⟩ (-1)

/-- `clear()`: `super.clear()` empties the store, then the hash group is
rebuilt at its default size. -/
def clear (s : UMM) : UMM :=
  constructHashGroup { s with data := [] } (-1)

/-- `assign(begin, end)`: pre-size the hash group to `size * RATIO`, then
(modelled from the spec, `super.assign` is not under src) rebuild the store
by inserting every pair of the range. -/
def assign (fuel : Nat) (s : UMM) (l : List (Int × Int)) : Option UMM :=
  let s1 := constructHashGroup { s with data := [] } ((l.length * Ratio : Nat) : Int)
  l.foldlM (fun st kv => (insertByPair fuel st kv.1 kv.2).map (fun p => p.1)) s1

/-- An insert or erase step of a user-level operation sequence.  An erase is
performed through a handle to a live element; `del i` on a dead handle, or on
an element whose key is shared by another live element, is skipped (the
guarded sequences are the scope of the amended claim). -/
inductive UOp where
  | ins : Int → Int → UOp
  | del : Nat → UOp
deriving DecidableEq

/-- Apply one operation. -/
def applyOp (fuel : Nat) (s : UMM) : UOp → Option UMM
  | .ins k v => (insertByPair fuel s k v).map (fun p => p.1)
  | .del i =>
    if i ∈ s.data ∧ (∀ j ∈ s.data, keyOf s j = keyOf s i → j = i) then
      some (erase s i)
    else some s

/-- Run a sequence of operations from a default-constructed multimap. -/
def runOps (fuel : Nat) (ops : List UOp) : Option UMM :=
  ops.foldlM (applyOp fuel) emptyUMM

/-- Every handle in every bucket is live and sits in the bucket of its key. -/
def wellBucketed (s : UMM) : Prop :=
  ∀ idx < s.buckets.length, ∀ j ∈ s.buckets.getD idx [],
    j ∈ s.data ∧ idx = hashIndex s (keyOf s j)

/-- Every live element's handle is present in the bucket of its key. -/
def covers (s : UMM) : Prop :=
  ∀ j ∈ s.data, j ∈ s.buckets.getD (hashIndex s (keyOf s j)) []

/-- The coherence invariant of the bucket table (plus bookkeeping facts the
preservation proof needs: fresh ids, id uniqueness, the fixed bucket count of
states reachable by insert/erase from a default construction). -/
def INV (s : UMM) : Prop :=
  s.buckets.length = MIN_SIZE ∧
  s.data.Nodup ∧
  (s.buckets.flatten).Nodup ∧
  wellBucketed s ∧
  covers s ∧
  (∀ j ∈ s.data, j < s.fresh) ∧
  (s.nodes.map (fun e => e.id)).Nodup ∧
  (∀ e ∈ s.nodes, e.id < s.fresh) ∧
  (∀ j ∈ s.data, j ∈ s.nodes.map (fun e => e.id))

instance (s : UMM) : Decidable (INV s) := by
  unfold INV wellBucketed covers
  infer_instance

/-- The duplicate-key scenario: insert `(0, 10)` and `(0, 20)` (same key),
then erase the handle of the second element (id `1`). -/
def dupDemo : Option UMM :=
  (insertByPair 100 emptyUMM 0 10).bind (fun p =>
    (insertByPair 100 p.1 0 20).map (fun q => erase q.1 1))

/-- A distinct-key operation sequence used as a concrete instance. -/
def opsDemo : List UOp := [UOp.ins 0 10, UOp.ins 1 11, UOp.ins 5 12, UOp.del 1]

/-- The state reached by `opsDemo`. -/
def demoState : UMM := (runOps 100 opsDemo).getD emptyUMM

/-- The result of one insert into a default-constructed multimap. -/
def insDemo : UMM × Nat := (insertByPair 10 emptyUMM 0 10).getD (emptyUMM, 0)

/-- The state produced by one `assign` call. -/
def assignDemo : UMM := (assign 100 emptyUMM [(1, 1), (2, 2), (3, 3)]).getD emptyUMM

end UMultiMap

/-! ### Concrete claim instances -/

namespace TSList

/-- The worked `merge` example of the claim: `A = [1,3,5]`, `B = [2,4,6]`,
`A.merge(B)` under the default `std.less`; result: (A's element sequence,
B's element sequence, B's `size_`). -/
def mergeDemo : Option (List Int × List Int × Option Int) := do
  let a ← ofValues 0 [1, 3, 5]
  let b ← ofValues 1 [2, 4, 6]
  let (a2, b2) ← merge a b (fun x y => x < y)
  let sa ← toSeq a2
  let sb ← toSeq b2
  pure (sa, sb, b2.size_)

/-- `[1,2].unique(p)` with the always-true equivalence `p`. -/
def uniqueDemoTruePred : Option (List Int) :=
  ((ofValues 0 [1, 2]).bind (fun s => unique s (fun _ _ => true))).bind toSeq

/-- `[1,2,2,3,3,3,4].unique()` (default structural equality). -/
def uniqueDemoDefault : Option (List Int) :=
  ((ofValues 0 [1, 2, 2, 3, 3, 3, 4]).bind
    (fun s => unique s (fun l r => l = r))).bind toSeq

/-- `[1,2].sort(greater)`. -/
def sortDemo : Option (ListState Int) :=
  (ofValues 0 [1, 2]).bind (fun s => sort s (fun a b => b < a))

/-- An initialised empty list (`clear()` applied to a fresh object). -/
def emptyList : ListState Int := clear (initList 0)

end TSList

/-! ## Theorems -/

/-- C1: for every `List` and every iterator argument whose source container is
not that `List`, `insert(position, ...)` (both the repeating-value and the
range overload) and `erase(begin, end)` (which `erase(position)` reduces to)
throw `InvalidArgument` — the spec's `InvalidOperand` — and the state carried
at the throw is exactly the input state: the element sequence and `size()`
are untouched because the foreign-handle check is the first statement, before
any mutation. -/
theorem C1_foreign_iterator_rejected_without_mutation
    (L : ListState Int) (pos b e : Iter) (n : Nat) (v : Int) (vals : List Int)
    (hpos : pos.src ≠ L.cid) (hbe : b.src ≠ L.cid ∨ e.src ≠ L.cid) :
    TSList.insertByRepeatingVal L pos n v = Except.error (LErr.invalidArgument, L) ∧
    TSList.insert_by_range L pos vals = Except.error (LErr.invalidArgument, L) ∧
    TSList.erase_by_range L b e = Except.error (LErr.invalidArgument, L) := by
  refine ⟨?_, ?_, ?_⟩
  · rw [TSList.insertByRepeatingVal, if_pos (Ne.symm hpos)]
  · rw [TSList.insert_by_range, if_pos (Ne.symm hpos)]
  · rw [TSList.erase_by_range, if_pos ?_]
    rcases hbe with h | h
    · exact Or.inl (Ne.symm h)
    · by_cases hb : b.src = L.cid
      · exact Or.inr (fun hbeq => h (hbeq ▸ hb))
      · exact Or.inl (fun hcb => hb hcb.symm)

/-- Witness for C1 at a concrete input: a two-element list with container id
`0` and iterators claiming source `5`. -/
theorem C1_witness :
    (Iter.src ⟨5, 0⟩ ≠ (TSList.emptyList).cid ∨ False) ∧
    TSList.insertByRepeatingVal TSList.emptyList ⟨5, 0⟩ 1 7 =
      Except.error (LErr.invalidArgument, TSList.emptyList) ∧
    TSList.insert_by_range TSList.emptyList ⟨5, 0⟩ [7] =
      Except.error (LErr.invalidArgument, TSList.emptyList) ∧
    TSList.erase_by_range TSList.emptyList ⟨5, 0⟩ ⟨5, 0⟩ =
      Except.error (LErr.invalidArgument, TSList.emptyList) := by
  have h := C1_foreign_iterator_rejected_without_mutation TSList.emptyList
    ⟨5, 0⟩ ⟨5, 0⟩ ⟨5, 0⟩ 1 7 [7] (by decide) (Or.inl (by decide))
  exact ⟨Or.inl (by decide), h.1, h.2.1, h.2.2⟩

/-- C5 (failing input): merging the claim's own example `A = [1,3,5]`,
`B = [2,4,6]` does not produce `A = [1,2,3,4,5,6]`: after the first splice
`obj.begin()` is a stale handle (erasing the first element does not update
`begin_` until the list is empty), so the first element of `B` is re-read and
re-inserted on every turn.  The code yields `A = [1,2,2,2,3,5]`, and `B` ends
with `size() = 0` while iteration from its (stale) `begin()` still shows
`[4, 6]`. -/
theorem C5_merge_counterexample_eval :
    TSList.mergeDemo = some ([1, 2, 2, 2, 3, 5], [4, 6], some 0) ∧
    ([1, 2, 2, 2, 3, 5] : List Int) ≠ [1, 2, 3, 4, 5, 6] := by
  constructor
  · rfl
  · decide

/-- C6 (failing input): `push_front` on an empty (freshly cleared) list
violates the mutual-consistency part of the circular-chain invariant: the
new sentinel's `next` is the new node (id 1) but that node's `prev` is still
`null` — `push_front` never assigns it.  The invariant holds before the
call. -/
theorem C6_push_front_breaks_chain :
    TSList.chainOk TSList.emptyList = true ∧
    (TSList.push_front TSList.emptyList 0).map TSList.chainOk = some false ∧
    (TSList.push_front TSList.emptyList 0).bind (fun s => s.end_) = some 2 ∧
    (TSList.push_front TSList.emptyList 0).bind (fun s => TSList.nxt s 2) = some 1 ∧
    (TSList.push_front TSList.emptyList 0).map (fun s => TSList.prv s 1) = some none := by
  refine ⟨rfl, rfl, rfl, rfl, rfl⟩

/-- C7 (failing input): `unique(p)` with the always-true predicate `p` on
`[1, 2]` keeps both elements — the loop body calls `std.equals` directly and
ignores `binary_pred` — while the claim demands that the second element (being
`p`-equivalent to its predecessor) be removed.  With the (structural-equality)
default the claim's example does hold. -/
theorem C7_unique_ignores_predicate :
    TSList.uniqueDemoTruePred = some [1, 2] ∧
    some ([1, 2] : List Int) ≠ some [1] ∧
    TSList.uniqueDemoDefault = some [1, 2, 3, 4] := by
  refine ⟨rfl, by decide, rfl⟩

/-- C8 (failing input): `sort(compare)` with the reversing comparator on
`[1, 2]` returns `[1, 2]`, not `[2, 1]`: the body hands the copied values to
the global `sort` utility without passing `compare`, so the default
`std.less` ordering is used.  (The re-assignment also leaves `size_ = 4`,
because `assign` adds the element count to the never-reset field.) -/
theorem C8_sort_ignores_comparator :
    TSList.sortDemo.bind TSList.toSeq = some [1, 2] ∧
    some ([1, 2] : List Int) ≠ some [2, 1] ∧
    TSList.sortDemo.map (fun s => s.size_) = some (some 4) := by
  refine ⟨rfl, by decide, rfl⟩

/-- C10: the count-and-value overload `assign(n, val)` mutates nothing (the
body only contains the iterator branch), and a list built with the fill
constructor `new List(n, val)` therefore has no nodes and its `begin_`,
`end_`, `size_` fields are never assigned. -/
theorem C10_fill_constructor_no_elements
    (L : ListState Int) (cid n : Nat) (v : Int) :
    TSList.assignNumVal L n v = L ∧
    (TSList.constructorFill cid n v : ListState Int).begin_ = none ∧
    (TSList.constructorFill cid n v : ListState Int).end_ = none ∧
    (TSList.constructorFill cid n v : ListState Int).size_ = none ∧
    (TSList.constructorFill cid n v : ListState Int).nodes = [] := by
  exact ⟨rfl, rfl, rfl, rfl, rfl⟩


/-! ### Tree search lemmas (for the ordered map) -/

namespace TreeMap

theorem elemsT_nil : elemsT XTree.nil = [] := rfl

theorem elemsT_node (l r : XTree) (i : Nat) :
    elemsT (XTree.node l i r) = elemsT l ++ i :: elemsT r := rfl

theorem tfind_eq_none_iff (κ : Nat → Int) :
    ∀ (t : XTree) (k : Int), tfind κ t k = none ↔ t = XTree.nil := by
  intro t
  cases t with
  | nil => intro k; simp [tfind]
  | node l i r =>
    intro k
    constructor
    · intro h
      rw [tfind.eq_def] at h
      by_cases h1 : k = κ i
      · simp [h1] at h
      · by_cases h2 : k < κ i
        · simp only [h1, if_false, h2, if_true] at h
          cases l with
          | nil => simp at h
          | node l2 j r2 =>
            rw [tfind_eq_none_iff κ (XTree.node l2 j r2) k] at h
            cases h
        · simp only [h1, if_false, h2] at h
          cases r with
          | nil => simp at h
          | node l2 j r2 =>
            rw [tfind_eq_none_iff κ (XTree.node l2 j r2) k] at h
            cases h
    · intro h
      cases h


/-- Characterisation of the descent: it returns a member of the tree that is
either an exact key match, or — when the key is absent from the tree — the
tightest neighbour on the side it stopped at: no tree key lies strictly
between the returned node's key and the searched key. -/
theorem tfind_spec (κ : Nat → Int) :
    ∀ (t : XTree), bstOk κ t = true → ∀ (k : Int) (j : Nat), tfind κ t k = some j →
    j ∈ elemsT t ∧
    (κ j = k ∨
      (κ j < k ∧ (∀ i ∈ elemsT t, κ i ≠ k) ∧ (∀ i ∈ elemsT t, ¬(κ j < κ i ∧ κ i < k))) ∨
      (k < κ j ∧ (∀ i ∈ elemsT t, κ i ≠ k) ∧ (∀ i ∈ elemsT t, ¬(k < κ i ∧ κ i < κ j)))) := by
  intro t
  induction t with
  | nil => intro _ k j hj; simp [tfind] at hj
  | node l i r ihl ihr =>
    intro hb k j hj
    have hb' := hb
    simp only [bstOk, Bool.and_eq_true, List.all_eq_true, decide_eq_true_eq] at hb'
    obtain ⟨⟨⟨hall_l, hall_r⟩, hbl⟩, hbr⟩ := hb'
    by_cases h1 : k = κ i
    · rw [tfind.eq_def] at hj
      simp only [h1, if_true] at hj
      injection hj with hj
      subst hj
      exact ⟨by simp [elemsT_node], Or.inl h1.symm⟩
    · by_cases h2 : k < κ i
      · cases l with
        | nil =>
          rw [tfind.eq_def] at hj
          simp only [h1, if_false, h2, if_true] at hj
          injection hj with hj
          subst hj
          refine ⟨by simp [elemsT_node], Or.inr (Or.inr ⟨h2, ?_, ?_⟩)⟩
          · intro x hx
            simp only [elemsT_node, elemsT_nil, List.nil_append, List.mem_cons] at hx
            rcases hx with rfl | hx
            · exact fun hk => h1 hk.symm
            · intro hk
              have hlt := hall_r x hx
              rw [hk] at hlt
              exact absurd h2 (lt_asymm hlt)
          · intro x hx
            simp only [elemsT_node, elemsT_nil, List.nil_append, List.mem_cons] at hx
            rcases hx with rfl | hx
            · exact fun hc => lt_irrefl _ hc.2
            · exact fun hc => absurd (hall_r x hx) (not_lt_of_gt hc.2)
        | node l2 j2 r2 =>
          rw [tfind.eq_def] at hj
          simp only [h1, if_false, h2, if_true] at hj
          obtain ⟨hmem, htri⟩ := ihl hbl k j hj
          have hmem' : j ∈ elemsT (XTree.node (XTree.node l2 j2 r2) i r) := by
            rw [elemsT_node]
            exact List.mem_append.mpr (Or.inl hmem)
          have habs_lift :
              (∀ x ∈ elemsT (XTree.node l2 j2 r2), κ x ≠ k) →
              ∀ x ∈ elemsT (XTree.node (XTree.node l2 j2 r2) i r), κ x ≠ k := by
            intro habs x hx
            rw [elemsT_node] at hx
            rcases List.mem_append.mp hx with hx | hx
            · exact habs x hx
            · rcases List.mem_cons.mp hx with rfl | hx
              · exact fun hk => h1 hk.symm
              · intro hk
                have hlt := hall_r x hx
                rw [hk] at hlt
                exact absurd h2 (lt_asymm hlt)
          refine ⟨hmem', ?_⟩
          rcases htri with hkj | ⟨hjk, habs, hbtw⟩ | ⟨hkj, habs, hbtw⟩
          · exact Or.inl hkj
          · refine Or.inr (Or.inl ⟨hjk, habs_lift habs, ?_⟩)
            intro x hx hc
            rw [elemsT_node] at hx
            rcases List.mem_append.mp hx with hx | hx
            · exact hbtw x hx hc
            · rcases List.mem_cons.mp hx with rfl | hx
              · exact absurd h2 (lt_asymm hc.2)
              · exact absurd hc.2 (not_lt_of_gt (lt_trans h2 (hall_r x hx)))
          · refine Or.inr (Or.inr ⟨hkj, habs_lift habs, ?_⟩)
            have hji : κ j < κ i := hall_l j hmem
            intro x hx hc
            rw [elemsT_node] at hx
            rcases List.mem_append.mp hx with hx | hx
            · exact hbtw x hx hc
            · rcases List.mem_cons.mp hx with rfl | hx
              · exact absurd hc.2 (not_lt_of_gt hji)
              · exact absurd hc.2 (not_lt_of_gt (lt_trans hji (hall_r x hx)))
      · have h3 : κ i < k :=
          lt_of_le_of_ne (not_lt.mp h2) (fun hek => h1 hek.symm)
        cases r with
        | nil =>
          rw [tfind.eq_def] at hj
          simp only [h1, if_false, h2] at hj
          injection hj with hj
          subst hj
          refine ⟨by simp [elemsT_node], Or.inr (Or.inl ⟨h3, ?_, ?_⟩)⟩
          · intro x hx
            simp only [elemsT_node, elemsT_nil, List.mem_append, List.mem_cons,
              List.not_mem_nil, or_false] at hx
            rcases hx with hx | rfl
            · intro hk
              have hlt := lt_trans (hall_l x hx) h3
              rw [hk] at hlt
              exact lt_irrefl _ hlt
            · exact ne_of_lt h3
          · intro x hx
            simp only [elemsT_node, elemsT_nil, List.mem_append, List.mem_cons,
              List.not_mem_nil, or_false] at hx
            rcases hx with hx | rfl
            · exact fun hc => absurd (hall_l x hx) (not_lt_of_gt hc.1)
            · exact fun hc => lt_irrefl _ hc.1
        | node l2 j2 r2 =>
          rw [tfind.eq_def] at hj
          simp only [h1, if_false, h2] at hj
          obtain ⟨hmem, htri⟩ := ihr hbr k j hj
          have hmem' : j ∈ elemsT (XTree.node l i (XTree.node l2 j2 r2)) := by
            rw [elemsT_node]
            exact List.mem_append.mpr (Or.inr (List.mem_cons.mpr (Or.inr hmem)))
          have habs_lift :
              (∀ x ∈ elemsT (XTree.node l2 j2 r2), κ x ≠ k) →
              ∀ x ∈ elemsT (XTree.node l i (XTree.node l2 j2 r2)), κ x ≠ k := by
            intro habs x hx
            rw [elemsT_node] at hx
            rcases List.mem_append.mp hx with hx | hx
            · intro hk
              have hlt := lt_trans (hall_l x hx) h3
              rw [hk] at hlt
              exact lt_irrefl _ hlt
            · rcases List.mem_cons.mp hx with rfl | hx
              · exact ne_of_lt h3
              · exact habs x hx
          have hji : κ i < κ j := hall_r j hmem
          refine ⟨hmem', ?_⟩
          rcases htri with hkj | ⟨hjk, habs, hbtw⟩ | ⟨hkj, habs, hbtw⟩
          · exact Or.inl hkj
          · refine Or.inr (Or.inl ⟨hjk, habs_lift habs, ?_⟩)
            intro x hx hc
            rw [elemsT_node] at hx
            rcases List.mem_append.mp hx with hx | hx
            · exact absurd hc.1 (not_lt_of_gt (lt_trans (hall_l x hx) hji))
            · rcases List.mem_cons.mp hx with rfl | hx
              · exact absurd hc.1 (not_lt_of_gt hji)
              · exact hbtw x hx hc
          · refine Or.inr (Or.inr ⟨hkj, habs_lift habs, ?_⟩)
            intro x hx hc
            rw [elemsT_node] at hx
            rcases List.mem_append.mp hx with hx | hx
            · exact absurd hc.1 (not_lt_of_gt (lt_trans (hall_l x hx) h3))
            · rcases List.mem_cons.mp hx with rfl | hx
              · exact h2 hc.1
              · exact hbtw x hx hc

end TreeMap

theorem find?_append_of_forall_false {α : Type} (p : α → Bool) :
    ∀ (l1 l2 : List α), (∀ x ∈ l1, p x = false) → (l1 ++ l2).find? p = l2.find? p := by
  intro l1
  induction l1 with
  | nil => intro l2 _; rfl
  | cons a l ih =>
    intro l2 h
    rw [List.cons_append, List.find?_cons_of_neg _ (by simp [h a (by simp)])]
    exact ih l2 (fun x hx => h x (List.mem_cons_of_mem a hx))

theorem find?_eq_head?_of_forall_true {α : Type} (p : α → Bool) (l : List α)
    (h : ∀ x ∈ l, p x = true) : l.find? p = l.head? := by
  cases l with
  | nil => rfl
  | cons a t => rw [List.find?_cons_of_pos _ (h a (by simp)), List.head?_cons]

namespace TreeMap

theorem find?_id_eq :
    ∀ (l : List TMElem), (l.map (fun e => e.id)).Nodup →
    ∀ e ∈ l, l.find? (fun x => x.id = e.id) = some e := by
  intro l
  induction l with
  | nil => intro _ e he; cases he
  | cons a t ih =>
    intro hn e he
    rw [List.map_cons, List.nodup_cons] at hn
    by_cases ha : a.id = e.id
    · have : e = a := by
        rcases List.mem_cons.mp he with rfl | he'
        · rfl
        · exact absurd (ha ▸ List.mem_map_of_mem (fun x => x.id) he') hn.1
      rw [List.find?_cons_of_pos _ (by simp [ha])]
      rw [this]
    · have he' : e ∈ t := by
        rcases List.mem_cons.mp he with rfl | he'
        · exact absurd rfl ha
        · exact he'
      rw [List.find?_cons_of_neg _ (by simp [ha])]
      exact ih hn.2 e he'

theorem keyOfId_eq (s : TreeMapState) (hn : (idsOf s).Nodup) (e : TMElem)
    (he : e ∈ s.data) : keyOfId s e.id = e.key := by
  rw [keyOfId, find?_id_eq s.data hn e he]
  rfl

theorem sorted_split {pre post : List TMElem} {e : TMElem}
    (h : (((pre ++ e :: post).map (fun x => x.key))).Pairwise (fun a b => a < b)) :
    (∀ x ∈ pre, x.key < e.key) ∧ (∀ y ∈ post, e.key < y.key) := by
  rw [List.map_append, List.map_cons, List.pairwise_append] at h
  obtain ⟨_, h2, h3⟩ := h
  constructor
  · intro x hx
    exact h3 _ (List.mem_map_of_mem _ hx) _ (by simp)
  · intro y hy
    exact (List.pairwise_cons.mp h2).1 _ (List.mem_map_of_mem _ hy)

theorem ids_split {pre post : List TMElem} {e : TMElem}
    (hn : (((pre ++ e :: post).map (fun x => x.id))).Nodup) :
    ∀ x ∈ pre, x.id ≠ e.id := by
  rw [List.map_append, List.map_cons, List.nodup_append] at hn
  intro x hx hxe
  exact hn.2.2 (List.mem_map_of_mem _ hx) (by simp [hxe])

theorem nextIter_split :
    ∀ (pre : List TMElem) (e : TMElem) (post : List TMElem),
    (∀ x ∈ pre, x.id ≠ e.id) →
    nextIter (pre ++ e :: post) e.id = post.head?.map (fun x => x.id) := by
  intro pre
  induction pre with
  | nil =>
    intro e post _
    simp [nextIter]
  | cons a t ih =>
    intro e post h
    rw [List.cons_append, nextIter, if_neg (h a (by simp))]
    exact ih e post (fun x hx => h x (List.mem_cons_of_mem a hx))

theorem insertBeforeId_split :
    ∀ (pre : List TMElem) (y : TMElem) (post : List TMElem) (e : TMElem),
    (∀ x ∈ pre, x.id ≠ y.id) →
    insertBeforeId y.id e (pre ++ y :: post) = pre ++ e :: y :: post := by
  intro pre
  induction pre with
  | nil =>
    intro y post e _
    simp [insertBeforeId]
  | cons a t ih =>
    intro y post e h
    rw [List.cons_append, insertBeforeId, if_neg (h a (by simp)), ih y post e
      (fun x hx => h x (List.mem_cons_of_mem a hx))]
    rfl

theorem sortedInsertKV_append (k v : Int) :
    ∀ (l1 l2 : List (Int × Int)), (∀ x ∈ l1, x.1 < k) →
    sortedInsertKV k v (l1 ++ l2) = l1 ++ sortedInsertKV k v l2 := by
  intro l1
  induction l1 with
  | nil => intro l2 _; rfl
  | cons a t ih =>
    intro l2 h
    obtain ⟨a1, a2⟩ := a
    rw [List.cons_append, sortedInsertKV, if_pos (h (a1, a2) (by simp)),
      ih l2 (fun x hx => h x (List.mem_cons_of_mem _ hx))]
    rfl

theorem sortedInsertKV_stop (k v : Int) (y : Int × Int) (l : List (Int × Int))
    (h : ¬ y.1 < k) : sortedInsertKV k v (y :: l) = (k, v) :: y :: l := by
  obtain ⟨y1, y2⟩ := y
  rw [sortedInsertKV, if_neg h]

/-- Translation of `tfind_spec` to the element list of a well-formed map. -/
theorem tfind_data_spec (s : TreeMapState) (hWF : WF s) (k : Int) (j : Nat)
    (hj : tfind (keyOfId s) s.tree k = some j) :
    ∃ e, e ∈ s.data ∧ e.id = j ∧
      (e.key = k ∨
        (e.key < k ∧ (∀ x ∈ s.data, x.key ≠ k) ∧
          (∀ x ∈ s.data, ¬(e.key < x.key ∧ x.key < k))) ∨
        (k < e.key ∧ (∀ x ∈ s.data, x.key ≠ k) ∧
          (∀ x ∈ s.data, ¬(k < x.key ∧ x.key < e.key)))) := by
  obtain ⟨hsorted, hnodup, htd, hdt, hbst⟩ := hWF
  obtain ⟨hmem, htri⟩ := tfind_spec (keyOfId s) s.tree hbst k j hj
  obtain ⟨e, he, heid⟩ := List.mem_map.mp (htd j hmem)
  have hkey : keyOfId s j = e.key := by
    rw [← heid]
    exact keyOfId_eq s hnodup e he
  have hdx : ∀ x, x ∈ s.data → x.id ∈ elemsT s.tree := by
    intro x hx
    exact hdt x.id (List.mem_map_of_mem _ hx)
  have hkx : ∀ x, x ∈ s.data → keyOfId s x.id = x.key := by
    intro x hx
    exact keyOfId_eq s hnodup x hx
  refine ⟨e, he, heid, ?_⟩
  rcases htri with h | ⟨hlt, habs, hbtw⟩ | ⟨hgt, habs, hbtw⟩
  · exact Or.inl (by rw [← hkey]; exact h)
  · refine Or.inr (Or.inl ⟨by rw [← hkey]; exact hlt, ?_, ?_⟩)
    · intro x hx
      have := habs x.id (hdx x hx)
      rwa [hkx x hx] at this
    · intro x hx
      have := hbtw x.id (hdx x hx)
      rwa [hkx x hx, hkey] at this
  · refine Or.inr (Or.inr ⟨by rw [← hkey]; exact hgt, ?_, ?_⟩)
    · intro x hx
      have := habs x.id (hdx x hx)
      rwa [hkx x hx] at this
    · intro x hx
      have := hbtw x.id (hdx x hx)
      rwa [hkx x hx, hkey] at this

/-- A well-formed map with an empty index has an empty element list. -/
theorem data_eq_nil_of_tree_nil (s : TreeMapState) (hWF : WF s)
    (h : s.tree = XTree.nil) : s.data = [] := by
  obtain ⟨_, _, _, hdt, _⟩ := hWF
  cases hd : s.data with
  | nil => rfl
  | cons a as =>
    exfalso
    have : a.id ∈ elemsT s.tree := by
      refine hdt a.id ?_
      rw [idsOf, hd]
      simp
    rw [h, elemsT_nil] at this
    cases this

end TreeMap


namespace TreeMap

/-- Shared context for the bound characterisations: the split of the data
list at the element the descent returned, together with the translated
trichotomy. -/
theorem bounds_context (s : TreeMapState) (k : Int) (hWF : WF s) (j : Nat)
    (htf : tfind (keyOfId s) s.tree k = some j) :
    ∃ pre e post, s.data = pre ++ e :: post ∧ e.id = j ∧
      (∀ x ∈ pre, x.key < e.key) ∧ (∀ y ∈ post, e.key < y.key) ∧
      (∀ x ∈ pre, x.id ≠ e.id) ∧
      (e.key = k ∨
        (e.key < k ∧ (∀ x ∈ s.data, x.key ≠ k) ∧
          (∀ x ∈ s.data, ¬(e.key < x.key ∧ x.key < k))) ∨
        (k < e.key ∧ (∀ x ∈ s.data, x.key ≠ k) ∧
          (∀ x ∈ s.data, ¬(k < x.key ∧ x.key < e.key)))) := by
  obtain ⟨hsorted, hnodup, htd, hdt, hbst⟩ := hWF
  obtain ⟨e, he, heid, htri⟩ := tfind_data_spec s ⟨hsorted, hnodup, htd, hdt, hbst⟩ k j htf
  obtain ⟨pre, post, hsplit⟩ := List.append_of_mem he
  rw [hsplit] at hsorted
  obtain ⟨hpre, hpost⟩ := sorted_split hsorted
  have hnodup2 : ((pre ++ e :: post).map (fun x => x.id)).Nodup := by
    rw [← hsplit]; exact hnodup
  exact ⟨pre, e, post, hsplit, heid, hpre, hpost, ids_split hnodup2, htri⟩

/-- C4: on every well-formed unique-keyed tree map, `lowerBound(k)` returns
the first element whose key is not ordered before `k` (`end()` = `none` if
every key goes before `k`), `upperBound(k)` returns the first element whose
key goes strictly after `k`, and `equalRange(k)` is the pair
`(lowerBound(k), upperBound(k))`. -/
theorem C4_bounds_characterisation (s : TreeMapState) (k : Int) (hWF : WF s) :
    lowerBound s k = specLowerBound s k ∧
    upperBound s k = specUpperBound s k ∧
    equalRange s k = (lowerBound s k, upperBound s k) := by
  have hkeyOf : ∀ e ∈ s.data, keyOfId s e.id = e.key := fun e he =>
    keyOfId_eq s hWF.2.1 e he
  refine ⟨?_, ?_, rfl⟩
  · -- lowerBound
    cases htf : tfind (keyOfId s) s.tree k with
    | none =>
      have hnil := (tfind_eq_none_iff (keyOfId s) s.tree k).mp htf
      have hdata := data_eq_nil_of_tree_nil s hWF hnil
      simp [lowerBound, htf, specLowerBound, hdata]
    | some j =>
      obtain ⟨pre, e, post, hsplit, heid, hpre, hpost, hpreid, htri⟩ :=
        bounds_context s k hWF j htf
      have he : e ∈ s.data := by
        rw [hsplit]; exact List.mem_append.mpr (Or.inr (List.mem_cons.mpr (Or.inl rfl)))
      have hkey : keyOfId s j = e.key := by rw [← heid]; exact hkeyOf e he
      have hmempost : ∀ y ∈ post, y ∈ s.data := by
        intro y hy
        rw [hsplit]
        exact List.mem_append.mpr (Or.inr (List.mem_cons.mpr (Or.inr hy)))
      have hmempre : ∀ x ∈ pre, x ∈ s.data := by
        intro x hx
        rw [hsplit]
        exact List.mem_append.mpr (Or.inl hx)
      rcases htri with hk | ⟨hlt, habs, hbtw⟩ | ⟨hgt, habs, hbtw⟩
      · -- e.key = k : both sides are the handle of e
        have h1 : ¬ keyOfId s j < k := by rw [hkey, hk]; exact lt_irrefl k
        have hlb : lowerBound s k = some j := by
          simp only [lowerBound, htf]
          rw [if_neg h1]
        have hfl : (pre ++ e :: post).find? (fun x => decide (k ≤ x.key)) = some e := by
          rw [find?_append_of_forall_false _ pre (e :: post) (fun x hx => by
                simp only [decide_eq_false_iff_not, not_le]
                rw [← hk]; exact hpre x hx)]
          exact List.find?_cons_of_pos _ (by
            simp only [decide_eq_true_eq]
            exact le_of_eq hk.symm)
        rw [hlb, specLowerBound, hsplit, hfl]
        simp [heid]
      · -- e.key < k : both sides are the successor of e
        have h1 : keyOfId s j < k := by rw [hkey]; exact hlt
        have hlb : lowerBound s k = nextIter s.data j := by
          simp only [lowerBound, htf]
          rw [if_pos h1]
        have hfl : (pre ++ e :: post).find? (fun x => decide (k ≤ x.key)) =
            post.find? (fun x => decide (k ≤ x.key)) := by
          rw [find?_append_of_forall_false _ pre (e :: post) (fun x hx => by
                simp only [decide_eq_false_iff_not, not_le]
                exact lt_trans (hpre x hx) hlt)]
          exact List.find?_cons_of_neg _ (by
            simp only [decide_eq_true_eq]
            exact not_le.mpr hlt)
        have hposttrue : ∀ y ∈ post, (fun x => decide (k ≤ x.key)) y = true := by
          intro y hy
          simp only [decide_eq_true_eq]
          by_contra hc
          exact hbtw y (hmempost y hy) ⟨hpost y hy, not_le.mp hc⟩
        rw [hlb, ← heid, hsplit, nextIter_split pre e post hpreid,
          specLowerBound, hsplit, hfl, find?_eq_head?_of_forall_true _ post hposttrue]
      · -- k < e.key : both sides are the handle of e
        have h1 : ¬ keyOfId s j < k := by rw [hkey]; exact not_lt_of_gt hgt
        have hlb : lowerBound s k = some j := by
          simp only [lowerBound, htf]
          rw [if_neg h1]
        have hfl : (pre ++ e :: post).find? (fun x => decide (k ≤ x.key)) = some e := by
          rw [find?_append_of_forall_false _ pre (e :: post) (fun x hx => by
                simp only [decide_eq_false_iff_not, not_le]
                have hxe : ¬ k < x.key := fun hc => hbtw x (hmempre x hx) ⟨hc, hpre x hx⟩
                exact lt_of_le_of_ne (not_lt.mp hxe) (habs x (hmempre x hx)))]
          exact List.find?_cons_of_pos _ (by
            simp only [decide_eq_true_eq]
            exact le_of_lt hgt)
        rw [hlb, specLowerBound, hsplit, hfl]
        simp [heid]
  · -- upperBound
    cases htf : tfind (keyOfId s) s.tree k with
    | none =>
      have hnil := (tfind_eq_none_iff (keyOfId s) s.tree k).mp htf
      have hdata := data_eq_nil_of_tree_nil s hWF hnil
      simp [upperBound, htf, specUpperBound, hdata]
    | some j =>
      obtain ⟨pre, e, post, hsplit, heid, hpre, hpost, hpreid, htri⟩ :=
        bounds_context s k hWF j htf
      have he : e ∈ s.data := by
        rw [hsplit]; exact List.mem_append.mpr (Or.inr (List.mem_cons.mpr (Or.inl rfl)))
      have hkey : keyOfId s j = e.key := by rw [← heid]; exact hkeyOf e he
      have hmempost : ∀ y ∈ post, y ∈ s.data := by
        intro y hy
        rw [hsplit]
        exact List.mem_append.mpr (Or.inr (List.mem_cons.mpr (Or.inr hy)))
      have hmempre : ∀ x ∈ pre, x ∈ s.data := by
        intro x hx
        rw [hsplit]
        exact List.mem_append.mpr (Or.inl hx)
      rcases htri with hk | ⟨hlt, habs, hbtw⟩ | ⟨hgt, habs, hbtw⟩
      · -- e.key = k : both sides are the successor of e
        have h1 : ¬ (¬ keyOfId s j = k ∧ ¬ keyOfId s j < k) := by
          rw [hkey, hk]
          exact fun hc => hc.1 rfl
        have hub : upperBound s k = nextIter s.data j := by
          simp only [upperBound, htf]
          rw [if_neg h1]
        have hfl : (pre ++ e :: post).find? (fun x => decide (k < x.key)) =
            post.find? (fun x => decide (k < x.key)) := by
          rw [find?_append_of_forall_false _ pre (e :: post) (fun x hx => by
                simp only [decide_eq_false_iff_not, not_lt]
                rw [← hk]; exact le_of_lt (hpre x hx))]
          exact List.find?_cons_of_neg _ (by
            simp only [decide_eq_true_eq]
            rw [hk]
            exact lt_irrefl k)
        have hposttrue : ∀ y ∈ post, (fun x => decide (k < x.key)) y = true := by
          intro y hy
          simp only [decide_eq_true_eq]
          rw [← hk]; exact hpost y hy
        rw [hub, ← heid, hsplit, nextIter_split pre e post hpreid,
          specUpperBound, hsplit, hfl, find?_eq_head?_of_forall_true _ post hposttrue]
      · -- e.key < k : both sides are the successor of e
        have h1 : ¬ (¬ keyOfId s j = k ∧ ¬ keyOfId s j < k) := by
          rw [hkey]
          exact fun hc => hc.2 hlt
        have hub : upperBound s k = nextIter s.data j := by
          simp only [upperBound, htf]
          rw [if_neg h1]
        have hfl : (pre ++ e :: post).find? (fun x => decide (k < x.key)) =
            post.find? (fun x => decide (k < x.key)) := by
          rw [find?_append_of_forall_false _ pre (e :: post) (fun x hx => by
                simp only [decide_eq_false_iff_not, not_lt]
                exact le_of_lt (lt_trans (hpre x hx) hlt))]
          exact List.find?_cons_of_neg _ (by
            simp only [decide_eq_true_eq]
            exact not_lt_of_gt hlt)
        have hposttrue : ∀ y ∈ post, (fun x => decide (k < x.key)) y = true := by
          intro y hy
          simp only [decide_eq_true_eq]
          have hky : k ≤ y.key := by
            by_contra hc
            exact hbtw y (hmempost y hy) ⟨hpost y hy, not_le.mp hc⟩
          exact lt_of_le_of_ne hky (Ne.symm (habs y (hmempost y hy)))
        rw [hub, ← heid, hsplit, nextIter_split pre e post hpreid,
          specUpperBound, hsplit, hfl, find?_eq_head?_of_forall_true _ post hposttrue]
      · -- k < e.key : both sides are the handle of e
        have h1 : ¬ keyOfId s j = k ∧ ¬ keyOfId s j < k := by
          rw [hkey]
          exact ⟨ne_of_gt hgt, not_lt_of_gt hgt⟩
        have hub : upperBound s k = some j := by
          simp only [upperBound, htf]
          rw [if_pos h1]
        have hfl : (pre ++ e :: post).find? (fun x => decide (k < x.key)) = some e := by
          rw [find?_append_of_forall_false _ pre (e :: post) (fun x hx => by
                simp only [decide_eq_false_iff_not, not_lt]
                have hxe : ¬ k < x.key := fun hc => hbtw x (hmempre x hx) ⟨hc, hpre x hx⟩
                exact not_lt.mp hxe)]
          exact List.find?_cons_of_pos _ (by
            simp only [decide_eq_true_eq]
            exact hgt)
        rw [hub, specUpperBound, hsplit, hfl]
        simp [heid]

end TreeMap

namespace TreeMap

theorem sortedInsertKV_length (k v : Int) :
    ∀ (l : List (Int × Int)), (sortedInsertKV k v l).length = l.length + 1 := by
  intro l
  induction l with
  | nil => rfl
  | cons a t ih =>
    obtain ⟨a1, a2⟩ := a
    rw [sortedInsertKV]
    by_cases h : a1 < k
    · rw [if_pos h]
      simp [ih]
    · rw [if_neg h]
      simp

theorem sortedInsertKV_mid (k v : Int) (l1 l2 : List (Int × Int))
    (h1 : ∀ x ∈ l1, x.1 < k) (h2 : ∀ y ∈ l2, ¬ y.1 < k) :
    sortedInsertKV k v (l1 ++ l2) = l1 ++ (k, v) :: l2 := by
  rw [sortedInsertKV_append k v l1 l2 h1]
  cases l2 with
  | nil => rfl
  | cons y ys => rw [sortedInsertKV_stop k v y ys (h2 y (by simp))]

/-- C3: on every well-formed unique-keyed tree map, `insert(key, value)` with
a key already present leaves the map unchanged and returns the position of
the existing element paired with `inserted = false`; with an absent key it
adds exactly one new element, placed by the tree descent at the key's ordered
position, and returns the new position paired with `inserted = true`. -/
theorem C3_unique_insert (s : TreeMapState) (k v : Int) (hWF : WF s) :
    ((∃ e, e ∈ s.data ∧ e.key = k) →
      ∃ e, e ∈ s.data ∧ e.key = k ∧ insertByPair s k v = (s, (some e.id, false))) ∧
    ((∀ e ∈ s.data, e.key ≠ k) →
      (insertByPair s k v).2 = (some s.fresh, true) ∧
      kvSeq (insertByPair s k v).1 = sortedInsertKV k v (kvSeq s) ∧
      (insertByPair s k v).1.data.length = s.data.length + 1) := by
  constructor
  · -- key already present
    rintro ⟨e0, he0, hk0⟩
    cases htf : tfind (keyOfId s) s.tree k with
    | none =>
      exfalso
      have hnil := (tfind_eq_none_iff (keyOfId s) s.tree k).mp htf
      have hdata := data_eq_nil_of_tree_nil s hWF hnil
      rw [hdata] at he0
      cases he0
    | some j =>
      obtain ⟨e, he, heid, htri⟩ := tfind_data_spec s hWF k j htf
      have hek : e.key = k := by
        rcases htri with h | ⟨_, habs, _⟩ | ⟨_, habs, _⟩
        · exact h
        · exact absurd hk0 (habs e0 he0)
        · exact absurd hk0 (habs e0 he0)
      have hkey : keyOfId s j = k := by
        rw [← heid, keyOfId_eq s hWF.2.1 e he]
        exact hek
      refine ⟨e, he, hek, ?_⟩
      simp only [insertByPair, htf]
      rw [if_pos hkey, heid]
  · -- key absent
    intro habs0
    cases htf : tfind (keyOfId s) s.tree k with
    | none =>
      have hnil := (tfind_eq_none_iff (keyOfId s) s.tree k).mp htf
      have hdata := data_eq_nil_of_tree_nil s hWF hnil
      refine ⟨by simp [insertByPair, htf, insertAt], ?_, ?_⟩
      · simp [insertByPair, htf, insertAt, insertBeforePos, kvSeq, hdata, sortedInsertKV]
      · simp [insertByPair, htf, insertAt, insertBeforePos, hdata]
    | some j =>
      obtain ⟨pre, e, post, hsplit, heid, hpre, hpost, hpreid, htri⟩ :=
        bounds_context s k hWF j htf
      have he : e ∈ s.data := by
        rw [hsplit]; exact List.mem_append.mpr (Or.inr (List.mem_cons.mpr (Or.inl rfl)))
      have hkey : keyOfId s j = e.key := by
        rw [← heid]; exact keyOfId_eq s hWF.2.1 e he
      have hne : ¬ keyOfId s j = k := by
        rw [hkey]; exact habs0 e he
      have hmempost : ∀ y ∈ post, y ∈ s.data := by
        intro y hy
        rw [hsplit]
        exact List.mem_append.mpr (Or.inr (List.mem_cons.mpr (Or.inr hy)))
      have hmempre : ∀ x ∈ pre, x ∈ s.data := by
        intro x hx
        rw [hsplit]
        exact List.mem_append.mpr (Or.inl hx)
      rcases htri with hk | ⟨hlt, _, hbtw⟩ | ⟨hgt, _, hbtw⟩
      · exact absurd hk (habs0 e he)
      · -- e.key < k : the new element goes right after e
        have hlt' : keyOfId s j < k := by rw [hkey]; exact hlt
        have hres : insertByPair s k v = insertAt s (nextIter s.data j) k v := by
          simp only [insertByPair, htf]
          rw [if_neg hne, if_pos hlt']
        have hpos : nextIter s.data j = post.head?.map (fun x => x.id) := by
          rw [← heid, hsplit]
          exact nextIter_split pre e post hpreid
        have hdata2 : (insertByPair s k v).1.data =
            (pre ++ [e]) ++ (⟨s.fresh, k, v⟩ : TMElem) :: post := by
          rw [hres, hpos]
          cases post with
          | nil =>
            show insertBeforePos s.data none _ = _
            rw [insertBeforePos, hsplit]
          | cons y rest =>
            show insertBeforePos s.data (some y.id) _ = _
            rw [insertBeforePos, hsplit]
            have hassoc : pre ++ e :: y :: rest = (pre ++ [e]) ++ y :: rest := by simp
            rw [hassoc]
            have hnodup3 : (((pre ++ [e]) ++ y :: rest).map (fun x => x.id)).Nodup := by
              rw [← hassoc, ← hsplit]
              exact hWF.2.1
            exact insertBeforeId_split (pre ++ [e]) y rest _ (ids_split hnodup3)
        have hkv : kvSeq (insertByPair s k v).1 =
            ((pre ++ [e]).map (fun t => (t.key, t.val))) ++ (k, v) ::
              (post.map (fun t => (t.key, t.val))) := by
          rw [kvSeq, hdata2]
          simp
        have hall1 : ∀ x ∈ (pre ++ [e]).map (fun t => (t.key, t.val)), x.1 < k := by
          intro x hx
          obtain ⟨t, ht, rfl⟩ := List.mem_map.mp hx
          rcases List.mem_append.mp ht with ht | ht
          · exact lt_trans (hpre t ht) hlt
          · rcases List.mem_cons.mp ht with rfl | hc
            · exact hlt
            · cases hc
        have hall2 : ∀ y ∈ post.map (fun t => (t.key, t.val)), ¬ y.1 < k := by
          intro y hy
          obtain ⟨t, ht, rfl⟩ := List.mem_map.mp hy
          exact fun hc => hbtw t (hmempost t ht) ⟨hpost t ht, hc⟩
        have hseq : kvSeq (insertByPair s k v).1 = sortedInsertKV k v (kvSeq s) := by
          have hassoc : pre ++ e :: post = (pre ++ [e]) ++ post := by simp
          have hR : sortedInsertKV k v (kvSeq s) =
              ((pre ++ [e]).map (fun t => (t.key, t.val))) ++ (k, v) ::
                (post.map (fun t => (t.key, t.val))) := by
            rw [kvSeq, hsplit, hassoc, List.map_append,
              sortedInsertKV_mid k v _ _ hall1 hall2]
          rw [hkv, hR]
        refine ⟨by rw [hres]; rfl, hseq, ?_⟩
        have hlencongr := congrArg List.length hseq
        rw [kvSeq, List.length_map, sortedInsertKV_length, kvSeq, List.length_map]
          at hlencongr
        exact hlencongr
      · -- k < e.key : the new element goes right before e
        have hnlt : ¬ keyOfId s j < k := by rw [hkey]; exact not_lt_of_gt hgt
        have hres : insertByPair s k v = insertAt s (some j) k v := by
          simp only [insertByPair, htf]
          rw [if_neg hne, if_neg hnlt]
        have hdata2 : (insertByPair s k v).1.data =
            pre ++ (⟨s.fresh, k, v⟩ : TMElem) :: e :: post := by
          rw [hres, ← heid]
          show insertBeforePos s.data (some e.id) _ = _
          rw [insertBeforePos, hsplit]
          exact insertBeforeId_split pre e post _ hpreid
        have hall1 : ∀ x ∈ pre.map (fun t => (t.key, t.val)), x.1 < k := by
          intro x hx
          obtain ⟨t, ht, rfl⟩ := List.mem_map.mp hx
          have hxe : ¬ k < t.key := fun hc => hbtw t (hmempre t ht) ⟨hc, hpre t ht⟩
          exact lt_of_le_of_ne (not_lt.mp hxe) (habs0 t (hmempre t ht))
        have hall2 : ∀ y ∈ (e :: post).map (fun t => (t.key, t.val)), ¬ y.1 < k := by
          intro y hy
          obtain ⟨t, ht, rfl⟩ := List.mem_map.mp hy
          rcases List.mem_cons.mp ht with rfl | hc
          · exact not_lt_of_gt hgt
          · exact fun hclt => absurd (lt_trans hgt (hpost t hc)) (not_lt_of_gt hclt)
        have hseq : kvSeq (insertByPair s k v).1 = sortedInsertKV k v (kvSeq s) := by
          have hL : kvSeq (insertByPair s k v).1 =
              pre.map (fun t => (t.key, t.val)) ++ (k, v) ::
                ((e :: post).map (fun t => (t.key, t.val))) := by
            rw [kvSeq, hdata2]
            simp
          have hR : sortedInsertKV k v (kvSeq s) =
              pre.map (fun t => (t.key, t.val)) ++ (k, v) ::
                ((e :: post).map (fun t => (t.key, t.val))) := by
            rw [kvSeq, hsplit, List.map_append,
              sortedInsertKV_mid k v _ _ hall1 hall2]
          rw [hL, hR]
        refine ⟨by rw [hres]; rfl, hseq, ?_⟩
        have hlencongr := congrArg List.length hseq
        rw [kvSeq, List.length_map, sortedInsertKV_length, kvSeq, List.length_map]
          at hlencongr
        exact hlencongr

end TreeMap

/-- Witness for C4 at the claim's example `[5, 3, 8, 1]`: the characterisation
applies to the concretely well-formed map, and concretely `lowerBound(4)`
points at the element with key `5`, `upperBound(5)` at the element with key
`8`, and `equalRange(3)` spans exactly the key-3 element. -/
theorem C4_witness :
    TreeMap.WF TreeMap.exMap ∧
    (TreeMap.lowerBound TreeMap.exMap 4 = TreeMap.specLowerBound TreeMap.exMap 4 ∧
     TreeMap.upperBound TreeMap.exMap 4 = TreeMap.specUpperBound TreeMap.exMap 4 ∧
     TreeMap.equalRange TreeMap.exMap 4 =
       (TreeMap.lowerBound TreeMap.exMap 4, TreeMap.upperBound TreeMap.exMap 4)) ∧
    TreeMap.lowerBound TreeMap.exMap 4 = some 0 ∧
    TreeMap.keyOfId TreeMap.exMap 0 = 5 ∧
    TreeMap.upperBound TreeMap.exMap 5 = some 2 ∧
    TreeMap.keyOfId TreeMap.exMap 2 = 8 ∧
    TreeMap.equalRange TreeMap.exMap 3 = (some 1, some 0) ∧
    TreeMap.keyOfId TreeMap.exMap 1 = 3 := by
  refine ⟨by decide, TreeMap.C4_bounds_characterisation TreeMap.exMap 4 (by decide),
    by decide, by decide, by decide, by decide, by decide, by decide⟩

/-- Witness for C3 on the example map: inserting present key `3` returns the
existing handle with `inserted = false` and leaves the map unchanged;
inserting absent key `4` adds exactly one element at its ordered place with
`inserted = true`. -/
theorem C3_witness :
    TreeMap.WF TreeMap.exMap ∧
    (∃ e, e ∈ TreeMap.exMap.data ∧ e.key = 3 ∧
      TreeMap.insertByPair TreeMap.exMap 3 99 = (TreeMap.exMap, (some e.id, false))) ∧
    ((TreeMap.insertByPair TreeMap.exMap 4 40).2 = (some TreeMap.exMap.fresh, true) ∧
     TreeMap.kvSeq (TreeMap.insertByPair TreeMap.exMap 4 40).1 =
       TreeMap.sortedInsertKV 4 40 (TreeMap.kvSeq TreeMap.exMap) ∧
     (TreeMap.insertByPair TreeMap.exMap 4 40).1.data.length =
       TreeMap.exMap.data.length + 1) := by
  refine ⟨by decide,
    (TreeMap.C3_unique_insert TreeMap.exMap 3 99 (by decide)).1 ⟨⟨1, 3, 30⟩, by decide, by decide⟩,
    (TreeMap.C3_unique_insert TreeMap.exMap 4 40 (by decide)).2 (by decide)⟩

/-! ### Bucket-table lemmas (for the hash multimap) -/

theorem getD_set_self {α : Type} (d : α) :
    ∀ (l : List α) (i : Nat) (a : α), i < l.length → (l.set i a).getD i d = a := by
  intro l
  induction l with
  | nil => intro i a h; cases h
  | cons x t ih =>
    intro i a h
    cases i with
    | zero => rfl
    | succ n => exact ih n a (Nat.lt_of_succ_lt_succ h)

theorem getD_set_ne {α : Type} (d : α) :
    ∀ (l : List α) (i j : Nat) (a : α), i ≠ j → (l.set i a).getD j d = l.getD j d := by
  intro l
  induction l with
  | nil => intro i j a _; cases i <;> rfl
  | cons x t ih =>
    intro i j a hne
    cases i with
    | zero =>
      cases j with
      | zero => exact absurd rfl hne
      | succ m => rfl
    | succ n =>
      cases j with
      | zero => rfl
      | succ m => exact ih n m a (fun hc => hne (hc ▸ rfl))

theorem set_split {α : Type} (d : α) :
    ∀ (l : List α) (i : Nat), i < l.length →
    ∃ l1 l2, l = l1 ++ (l.getD i d) :: l2 ∧ l1.length = i ∧
      (∀ a, l.set i a = l1 ++ a :: l2) := by
  intro l
  induction l with
  | nil => intro i h; cases h
  | cons x t ih =>
    intro i h
    cases i with
    | zero => exact ⟨[], t, rfl, rfl, fun a => rfl⟩
    | succ n =>
      obtain ⟨l1, l2, heq, hlen, hset⟩ := ih n (Nat.lt_of_succ_lt_succ h)
      refine ⟨x :: l1, l2, ?_, by simp [hlen], fun a => ?_⟩
      · rw [List.cons_append]
        exact congrArg (x :: ·) heq
      · rw [List.set_cons_succ, hset a]
        rfl

theorem mem_flatten_of_getD :
    ∀ (l : List (List Nat)) (idx : Nat) (j : Nat), idx < l.length →
    j ∈ l.getD idx [] → j ∈ l.flatten := by
  intro l
  induction l with
  | nil => intro idx j h; cases h
  | cons b t ih =>
    intro idx j h hj
    rw [List.flatten_cons]
    cases idx with
    | zero => exact List.mem_append.mpr (Or.inl hj)
    | succ n =>
      exact List.mem_append.mpr (Or.inr (ih n j (Nat.lt_of_succ_lt_succ h) hj))

theorem getD_of_mem_flatten :
    ∀ (l : List (List Nat)) (j : Nat), j ∈ l.flatten →
    ∃ idx, idx < l.length ∧ j ∈ l.getD idx [] := by
  intro l
  induction l with
  | nil => intro j h; cases h
  | cons b t ih =>
    intro j h
    rw [List.flatten_cons] at h
    rcases List.mem_append.mp h with h | h
    · exact ⟨0, Nat.succ_pos _, h⟩
    · obtain ⟨idx, hlt, hj⟩ := ih j h
      exact ⟨idx + 1, Nat.succ_lt_succ hlt, hj⟩

theorem nodup_flatten_unique_bucket :
    ∀ (l : List (List Nat)), l.flatten.Nodup →
    ∀ (j idx idx' : Nat), idx < l.length → idx' < l.length →
    j ∈ l.getD idx [] → j ∈ l.getD idx' [] → idx = idx' := by
  intro l
  induction l with
  | nil => intro _ j idx idx' h; cases h
  | cons b t ih =>
    intro hn j idx idx' hi hi' hji hji'
    rw [List.flatten_cons, List.nodup_append] at hn
    obtain ⟨hb, ht, hdisj⟩ := hn
    cases idx with
    | zero =>
      cases idx' with
      | zero => rfl
      | succ m =>
        exact absurd (mem_flatten_of_getD t m j (Nat.lt_of_succ_lt_succ hi') hji')
          (hdisj hji)
    | succ n =>
      cases idx' with
      | zero =>
        exact absurd (mem_flatten_of_getD t n j (Nat.lt_of_succ_lt_succ hi) hji)
          (hdisj hji')
      | succ m =>
        exact congrArg Nat.succ
          (ih ht j n m (Nat.lt_of_succ_lt_succ hi) (Nat.lt_of_succ_lt_succ hi') hji hji')

theorem find?_isSome_of_mem_prop {α : Type} (p : α → Bool) :
    ∀ (l : List α) (x : α), x ∈ l → p x = true → (l.find? p).isSome := by
  intro l
  induction l with
  | nil => intro x hx; cases hx
  | cons a t ih =>
    intro x hx hp
    cases hpa : p a with
    | true => rw [List.find?_cons_of_pos _ hpa]; rfl
    | false =>
      rw [List.find?_cons_of_neg _ (by simp [hpa])]
      rcases List.mem_cons.mp hx with rfl | hx2
      · rw [hpa] at hp; cases hp
      · exact ih x hx2 hp

theorem find?_append_left {α : Type} (p : α → Bool) :
    ∀ (l1 l2 : List α), (l1.find? p).isSome → (l1 ++ l2).find? p = l1.find? p := by
  intro l1
  induction l1 with
  | nil => intro l2 h; cases h
  | cons a t ih =>
    intro l2 h
    cases hpa : p a with
    | true =>
      rw [List.cons_append, List.find?_cons_of_pos _ hpa, List.find?_cons_of_pos _ hpa]
    | false =>
      rw [List.find?_cons_of_neg _ (by simp [hpa])] at h
      rw [List.cons_append, List.find?_cons_of_neg _ (by simp [hpa]),
        List.find?_cons_of_neg _ (by simp [hpa])]
      exact ih l2 h

namespace UMultiMap

/-- Appending new nodes does not change the projected key of an id that is
already present. -/
theorem keyOf_append_keep (t s : UMM) (l : List UMElem)
    (hn : t.nodes = s.nodes ++ l) (j : Nat)
    (h : j ∈ s.nodes.map (fun e => e.id)) : keyOf t j = keyOf s j := by
  obtain ⟨e, he, heid⟩ := List.mem_map.mp h
  rw [keyOf, keyOf, hn,
    find?_append_left _ s.nodes l
      (find?_isSome_of_mem_prop _ s.nodes e he (by simp [heid]))]

/-- The projected key of a freshly appended node. -/
theorem keyOf_appended (t : UMM) (pre : List UMElem) (k v : Int) (f : Nat)
    (hn : t.nodes = pre ++ [⟨f, k, v⟩]) (hne : ∀ e ∈ pre, e.id ≠ f) :
    keyOf t f = k := by
  rw [keyOf, hn, find?_append_of_forall_false _ pre _ (fun e he => by simp [hne e he])]
  simp [List.find?]

/-- On a table at the policy-minimum bucket count, a successful
`insertByPair` can only have taken the plain push branch of `handleInsert`
(the oversize-shrink test `hashGroup.size() > size() * 2` is false). -/
theorem insertByPair_shape (s : UMM) (k v : Int) (hlen : s.buckets.length = MIN_SIZE) :
    ∀ (fuel : Nat) (s2 : UMM) (i : Nat), insertByPair fuel s k v = some (s2, i) →
      i = s.fresh ∧
      s2 = pushToBucket
        { s with nodes := s.nodes ++ [⟨s.fresh, k, v⟩],
                 data := s.data ++ [s.fresh], fresh := s.fresh + 1 } s.fresh := by
  intro fuel s2 i h
  cases fuel with
  | zero => simp [insertByPair, handleInsert] at h
  | succ f =>
    rw [insertByPair] at h
    have hcond : ¬ (2 * (s.data ++ [s.fresh]).length <
        (({ s with nodes := s.nodes ++ [⟨s.fresh, k, v⟩],
                   data := s.data ++ [s.fresh], fresh := s.fresh + 1 } : UMM)).buckets.length) := by
      show ¬ (2 * (s.data ++ [s.fresh]).length < s.buckets.length)
      rw [hlen, List.length_append]
      simp [MIN_SIZE]
    rw [handleInsert] at h
    rw [if_neg hcond] at h
    simp only [Option.map_some'] at h
    injection h with h
    injection h with h1 h2
    exact ⟨h2.symm, h1.symm⟩

theorem pushToBucket_nodes (s : UMM) (i : Nat) : (pushToBucket s i).nodes = s.nodes := rfl

theorem pushToBucket_data (s : UMM) (i : Nat) : (pushToBucket s i).data = s.data := rfl

theorem pushToBucket_fresh (s : UMM) (i : Nat) : (pushToBucket s i).fresh = s.fresh := rfl

theorem pushToBucket_buckets (s : UMM) (i : Nat) :
    (pushToBucket s i).buckets =
      s.buckets.set (hashIndex s (keyOf s i))
        (s.buckets.getD (hashIndex s (keyOf s i)) [] ++ [i]) := rfl

/-- Appending the fresh handle to the bucket of its key preserves the
coherence invariant.  `t` is the state right after the new node has been
added to the store (`this.data.insert(this.data.end(), pair)`), `s` the state
before the whole insertion. -/
theorem INV_push (s t : UMM) (k v : Int)
    (hnodes : t.nodes = s.nodes ++ [⟨s.fresh, k, v⟩])
    (hdata : t.data = s.data ++ [s.fresh])
    (hbuckets : t.buckets = s.buckets)
    (hfreshEq : t.fresh = s.fresh + 1)
    (hINV : INV s) : INV (pushToBucket t s.fresh) := by
  obtain ⟨hlen, hdnd, hfnd, hwb, hcov, hdf, hnnd, hnf, hdn⟩ := hINV
  have hk1 : keyOf t s.fresh = k :=
    keyOf_appended t s.nodes k v s.fresh hnodes (fun e he => Nat.ne_of_lt (hnf e he))
  have hkeep : ∀ j ∈ s.data, keyOf t j = keyOf s j :=
    fun j hj => keyOf_append_keep t s [⟨s.fresh, k, v⟩] hnodes j (hdn j hj)
  have hpos : 0 < s.buckets.length := by rw [hlen]; decide
  have hti : hashIndex t (keyOf t s.fresh) = hashIndex s k := by
    rw [hashIndex, hbuckets, hk1]
    rfl
  have hbk : (pushToBucket t s.fresh).buckets =
      s.buckets.set (hashIndex s k) (s.buckets.getD (hashIndex s k) [] ++ [s.fresh]) := by
    rw [pushToBucket_buckets, hti, hbuckets]
  have hidxlt : hashIndex s k < s.buckets.length := Nat.mod_lt _ hpos
  have hfnotin : s.fresh ∉ s.buckets.flatten := by
    intro hc
    obtain ⟨ix, hixlt, hmem⟩ := getD_of_mem_flatten s.buckets s.fresh hc
    exact absurd (hdf s.fresh (hwb ix hixlt s.fresh hmem).1) (lt_irrefl s.fresh)
  have hlenp : (pushToBucket t s.fresh).buckets.length = s.buckets.length := by
    rw [hbk, List.length_set]
  have hhit : ∀ x, hashIndex (pushToBucket t s.fresh) x = hashIndex s x := by
    intro x
    rw [hashIndex, hashIndex, hlenp]
  have hkt : ∀ j, keyOf (pushToBucket t s.fresh) j = keyOf t j := by
    intro j
    rw [keyOf, keyOf, pushToBucket_nodes]
  refine ⟨?_, ?_, ?_, ?_, ?_, ?_, ?_, ?_, ?_⟩
  · -- bucket count unchanged
    rw [hlenp, hlen]
  · -- data ids distinct
    rw [pushToBucket_data, hdata, List.nodup_append]
    refine ⟨hdnd, by simp, ?_⟩
    intro a ha haf
    rw [List.mem_singleton] at haf
    exact absurd (hdf a ha) (by rw [haf]; exact lt_irrefl s.fresh)
  · -- the handles in the table remain pairwise distinct
    rw [hbk]
    obtain ⟨l1, l2, hbsp, _, hsetf⟩ :=
      set_split ([] : List Nat) s.buckets (hashIndex s k) hidxlt
    rw [hsetf, List.flatten_append, List.flatten_cons]
    have h1 : l1.flatten ++ ((s.buckets.getD (hashIndex s k) [] ++ [s.fresh]) ++ l2.flatten) =
        (l1.flatten ++ s.buckets.getD (hashIndex s k) []) ++ s.fresh :: l2.flatten := by
      simp [List.append_assoc]
    have h2 : s.buckets.flatten =
        (l1.flatten ++ s.buckets.getD (hashIndex s k) []) ++ l2.flatten := by
      conv_lhs => rw [hbsp]
      simp [List.flatten_append, List.flatten_cons, List.append_assoc]
    rw [h1, List.Perm.nodup_iff List.perm_middle, List.nodup_cons, ← h2]
    exact ⟨hfnotin, hfnd⟩
  · -- every stored handle is live and in the bucket of its key
    intro idx' hlt' j hj
    rw [hlenp] at hlt'
    rw [hbk] at hj
    rw [pushToBucket_data, hdata]
    by_cases hcase : idx' = hashIndex s k
    · rw [hcase] at hj hlt'
      rw [hcase]
      rw [getD_set_self _ _ _ _ hidxlt] at hj
      rcases List.mem_append.mp hj with hjb | hjf
      · obtain ⟨hjd, hjidx⟩ := hwb (hashIndex s k) hlt' j hjb
        refine ⟨List.mem_append.mpr (Or.inl hjd), ?_⟩
        rw [hhit, hkt, hkeep j hjd]
        exact hjidx
      · rw [List.mem_singleton] at hjf
        subst hjf
        refine ⟨List.mem_append.mpr (Or.inr (by simp)), ?_⟩
        rw [hhit, hkt, hk1]
    · rw [getD_set_ne _ _ _ _ _ (fun hc => hcase hc.symm)] at hj
      obtain ⟨hjd, hjidx⟩ := hwb idx' hlt' j hj
      refine ⟨List.mem_append.mpr (Or.inl hjd), ?_⟩
      rw [hhit, hkt, hkeep j hjd]
      exact hjidx
  · -- every live element is in the bucket of its key
    intro j hj
    rw [pushToBucket_data, hdata] at hj
    rw [hhit, hkt, hbk]
    rcases List.mem_append.mp hj with hjd | hjf
    · rw [hkeep j hjd]
      by_cases hcase : hashIndex s (keyOf s j) = hashIndex s k
      · rw [hcase, getD_set_self _ _ _ _ hidxlt]
        exact List.mem_append.mpr (Or.inl (by rw [← hcase]; exact hcov j hjd))
      · rw [getD_set_ne _ _ _ _ _ (fun hc => hcase hc.symm)]
        exact hcov j hjd
    · rw [List.mem_singleton] at hjf
      subst hjf
      rw [hk1, getD_set_self _ _ _ _ hidxlt]
      exact List.mem_append.mpr (Or.inr (by simp))
  · -- live ids below fresh
    intro j hj
    rw [pushToBucket_data, hdata] at hj
    rw [pushToBucket_fresh, hfreshEq]
    rcases List.mem_append.mp hj with hjd | hjf
    · exact Nat.lt_succ_of_lt (hdf j hjd)
    · rw [List.mem_singleton] at hjf
      rw [hjf]
      exact Nat.lt_succ_self _
  · -- node ids distinct
    rw [pushToBucket_nodes, hnodes, List.map_append, List.nodup_append]
    refine ⟨hnnd, by simp, ?_⟩
    intro a ha haf
    obtain ⟨e, he, heid⟩ := List.mem_map.mp ha
    simp only [List.map_cons, List.map_nil, List.mem_singleton] at haf
    rw [haf] at heid
    exact absurd (hnf e he) (by rw [heid]; exact lt_irrefl s.fresh)
  · -- node ids below fresh
    intro e he
    rw [pushToBucket_nodes, hnodes] at he
    rw [pushToBucket_fresh, hfreshEq]
    rcases List.mem_append.mp he with hen | hef
    · exact Nat.lt_succ_of_lt (hnf e hen)
    · rw [List.mem_singleton] at hef
      rw [hef]
      exact Nat.lt_succ_self _
  · -- live ids have nodes
    intro j hj
    rw [pushToBucket_data, hdata] at hj
    rw [pushToBucket_nodes, hnodes, List.map_append]
    rcases List.mem_append.mp hj with hjd | hjf
    · exact List.mem_append.mpr (Or.inl (hdn j hjd))
    · rw [List.mem_singleton] at hjf
      rw [hjf]
      exact List.mem_append.mpr (Or.inr (by simp))

/-- Insertion preserves the bucket-coherence invariant. -/
theorem INV_insert (s : UMM) (k v : Int) (hINV : INV s) :
    ∀ (fuel : Nat) (s2 : UMM) (i : Nat), insertByPair fuel s k v = some (s2, i) →
      INV s2 ∧ i = s.fresh ∧ s2.data = s.data ++ [s.fresh] := by
  intro fuel s2 i h
  obtain ⟨hi, hs2⟩ := insertByPair_shape s k v hINV.1 fuel s2 i h
  subst hi
  rw [hs2]
  exact ⟨INV_push s _ k v rfl rfl rfl rfl hINV, rfl, rfl⟩

theorem erase_nodes (s : UMM) (i : Nat) : (erase s i).nodes = s.nodes := rfl

theorem erase_data (s : UMM) (i : Nat) : (erase s i).data = s.data.erase i := rfl

theorem erase_fresh (s : UMM) (i : Nat) : (erase s i).fresh = s.fresh := rfl

theorem eraseBucketFirst_nodes_eq (s t : UMM) (hn : t.nodes = s.nodes) (k : Int) :
    ∀ b, eraseBucketFirst t k b = eraseBucketFirst s k b := by
  intro b
  induction b with
  | nil => rfl
  | cons j rest ih =>
    rw [eraseBucketFirst, eraseBucketFirst]
    have hk : keyOf t j = keyOf s j := by rw [keyOf, keyOf, hn]
    rw [hk, ih]

theorem erase_buckets_raw (s : UMM) (i : Nat) :
    (erase s i).buckets = s.buckets.set (hashIndex s (keyOf s i))
      (eraseBucketFirst { s with data := s.data.erase i } (keyOf s i)
        (s.buckets.getD (hashIndex s (keyOf s i)) [])) := rfl

/-- When the erased element's key matches only itself inside the bucket,
`handleErase`'s first-equal-key scan removes exactly the erased handle. -/
theorem eraseBucketFirst_eq_erase (s : UMM) (k : Int) (i : Nat) (hki : keyOf s i = k) :
    ∀ (b : List Nat), (∀ j ∈ b, keyOf s j = k → j = i) →
    eraseBucketFirst s k b = b.erase i := by
  intro b
  induction b with
  | nil => intro _; rfl
  | cons j rest ih =>
    intro hb
    rw [eraseBucketFirst]
    by_cases h : keyOf s j = k
    · rw [if_pos h]
      have : j = i := hb j (by simp) h
      rw [this, List.erase_cons_head]
    · rw [if_neg h]
      have hne : j ≠ i := fun hc => h (by rw [hc, hki])
      rw [List.erase_cons_tail, ih (fun x hx => hb x (List.mem_cons_of_mem j hx))]
      simp [hne]

/-- Erasing a live element whose key is unique among live elements removes
exactly its own handle from exactly its own bucket and preserves the
coherence invariant. -/
theorem INV_erase (s : UMM) (i : Nat) (hINV : INV s) (hi : i ∈ s.data)
    (huniq : ∀ j ∈ s.data, keyOf s j = keyOf s i → j = i) :
    (erase s i).data = s.data.erase i ∧
    (erase s i).buckets = s.buckets.set (hashIndex s (keyOf s i))
      ((s.buckets.getD (hashIndex s (keyOf s i)) []).erase i) ∧
    INV (erase s i) := by
  obtain ⟨hlen, hdnd, hfnd, hwb, hcov, hdf, hnnd, hnf, hdn⟩ := hINV
  have hpos : 0 < s.buckets.length := by rw [hlen]; decide
  have hidxlt : hashIndex s (keyOf s i) < s.buckets.length := Nat.mod_lt _ hpos
  have hbuniq : ∀ j ∈ s.buckets.getD (hashIndex s (keyOf s i)) [],
      keyOf s j = keyOf s i → j = i := by
    intro j hj hk
    exact huniq j (hwb _ hidxlt j hj).1 hk
  have hbe : (erase s i).buckets = s.buckets.set (hashIndex s (keyOf s i))
      ((s.buckets.getD (hashIndex s (keyOf s i)) []).erase i) := by
    rw [erase_buckets_raw,
      eraseBucketFirst_nodes_eq s { s with data := s.data.erase i } rfl,
      eraseBucketFirst_eq_erase s (keyOf s i) i rfl _ hbuniq]
  refine ⟨erase_data s i, hbe, ?_⟩
  obtain ⟨l1, l2, hbsp, _, hsetf⟩ :=
    set_split ([] : List Nat) s.buckets (hashIndex s (keyOf s i)) hidxlt
  have hbnodup : (s.buckets.getD (hashIndex s (keyOf s i)) []).Nodup := by
    have hfl : s.buckets.flatten =
        l1.flatten ++ (s.buckets.getD (hashIndex s (keyOf s i)) [] ++ l2.flatten) := by
      conv_lhs => rw [hbsp]
      simp [List.flatten_append, List.flatten_cons]
    have := hfnd
    rw [hfl, List.nodup_append] at this
    exact ((List.nodup_append).mp this.2.1).1
  have hlenp : (erase s i).buckets.length = s.buckets.length := by
    rw [hbe, List.length_set]
  have hhit : ∀ x, hashIndex (erase s i) x = hashIndex s x := by
    intro x
    rw [hashIndex, hashIndex, hlenp]
  have hkt : ∀ j, keyOf (erase s i) j = keyOf s j := by
    intro j
    rw [keyOf, keyOf, erase_nodes]
  refine ⟨?_, ?_, ?_, ?_, ?_, ?_, ?_, ?_, ?_⟩
  · rw [hlenp, hlen]
  · rw [erase_data]
    exact hdnd.erase i
  · rw [hbe, hsetf, List.flatten_append, List.flatten_cons]
    have hsub : List.Sublist
        (l1.flatten ++ ((s.buckets.getD (hashIndex s (keyOf s i)) []).erase i
          ++ l2.flatten))
        (l1.flatten ++ (s.buckets.getD (hashIndex s (keyOf s i)) [] ++ l2.flatten)) :=
      ((List.erase_sublist i _).append_right l2.flatten).append_left l1.flatten
    have hfl : s.buckets.flatten =
        l1.flatten ++ (s.buckets.getD (hashIndex s (keyOf s i)) [] ++ l2.flatten) := by
      conv_lhs => rw [hbsp]
      simp [List.flatten_append, List.flatten_cons]
    rw [hfl] at hfnd
    exact hfnd.sublist hsub
  · -- wellBucketed
    intro idx' hlt' j hj
    rw [hlenp] at hlt'
    rw [hbe] at hj
    rw [erase_data]
    by_cases hcase : idx' = hashIndex s (keyOf s i)
    · rw [hcase] at hj hlt'
      rw [hcase]
      rw [getD_set_self _ _ _ _ hidxlt] at hj
      have hjne : j ≠ i := ((List.Nodup.mem_erase_iff hbnodup).mp hj).1
      have hjb : j ∈ s.buckets.getD (hashIndex s (keyOf s i)) [] :=
        ((List.Nodup.mem_erase_iff hbnodup).mp hj).2
      obtain ⟨hjd, hjidx⟩ := hwb _ hidxlt j hjb
      refine ⟨(List.mem_erase_of_ne hjne).mpr hjd, ?_⟩
      rw [hhit, hkt]
      exact hjidx
    · rw [getD_set_ne _ _ _ _ _ (fun hc => hcase hc.symm)] at hj
      obtain ⟨hjd, hjidx⟩ := hwb idx' hlt' j hj
      have hjne : j ≠ i := by
        intro hc
        rw [hc] at hj hjidx
        exact hcase (nodup_flatten_unique_bucket s.buckets hfnd i idx'
          (hashIndex s (keyOf s i)) hlt' hidxlt hj (hcov i hi))
      refine ⟨(List.mem_erase_of_ne hjne).mpr hjd, ?_⟩
      rw [hhit, hkt]
      exact hjidx
  · -- covers
    intro j hj
    rw [erase_data] at hj
    have hjne : j ≠ i := ((List.Nodup.mem_erase_iff hdnd).mp hj).1
    have hjd : j ∈ s.data := ((List.Nodup.mem_erase_iff hdnd).mp hj).2
    rw [hhit, hkt, hbe]
    by_cases hcase : hashIndex s (keyOf s j) = hashIndex s (keyOf s i)
    · rw [hcase, getD_set_self _ _ _ _ hidxlt]
      refine (List.mem_erase_of_ne hjne).mpr ?_
      rw [← hcase]
      exact hcov j hjd
    · rw [getD_set_ne _ _ _ _ _ (fun hc => hcase hc.symm)]
      exact hcov j hjd
  · intro j hj
    rw [erase_data] at hj
    rw [erase_fresh]
    exact hdf j (List.mem_of_mem_erase hj)
  · rw [erase_nodes]
    exact hnnd
  · intro e he
    rw [erase_nodes] at he
    rw [erase_fresh]
    exact hnf e he
  · intro j hj
    rw [erase_data] at hj
    rw [erase_nodes]
    exact hdn j (List.mem_of_mem_erase hj)

theorem INV_emptyUMM : INV emptyUMM := by decide

theorem INV_applyOp (fuel : Nat) (s : UMM) (op : UOp) (s2 : UMM)
    (hINV : INV s) (h : applyOp fuel s op = some s2) : INV s2 := by
  cases op with
  | ins k v =>
    rw [applyOp] at h
    cases hx : insertByPair fuel s k v with
    | none => rw [hx] at h; cases h
    | some p =>
      rw [hx] at h
      simp only [Option.map_some'] at h
      injection h with h
      obtain ⟨h1, _, _⟩ := INV_insert s k v hINV fuel p.1 p.2 (by rw [hx])
      rw [← h]
      exact h1
  | del i =>
    rw [applyOp] at h
    by_cases hc : i ∈ s.data ∧ (∀ j ∈ s.data, keyOf s j = keyOf s i → j = i)
    · rw [if_pos hc] at h
      injection h with h
      rw [← h]
      exact (INV_erase s i hINV hc.1 hc.2).2.2
    · rw [if_neg hc] at h
      injection h with h
      rw [← h]
      exact hINV

theorem INV_foldOps : ∀ (ops : List UOp) (fuel : Nat) (s0 s : UMM),
    INV s0 → List.foldlM (applyOp fuel) s0 ops = some s → INV s := by
  intro ops
  induction ops with
  | nil =>
    intro fuel s0 s h0 h
    rw [List.foldlM_nil] at h
    injection h with h
    rw [← h]
    exact h0
  | cons op rest ih =>
    intro fuel s0 s h0 h
    rw [List.foldlM_cons] at h
    cases hx : applyOp fuel s0 op with
    | none => rw [hx] at h; cases h
    | some s1 =>
      rw [hx] at h
      exact ih fuel s1 s (INV_applyOp fuel s0 op s1 h0 hx) h

/-- The union of the buckets is exactly the live element set. -/
theorem INV_flatten_iff (s : UMM) (hINV : INV s) :
    ∀ j, j ∈ s.buckets.flatten ↔ j ∈ s.data := by
  obtain ⟨hlen, _, _, hwb, hcov, _, _, _, _⟩ := hINV
  intro j
  constructor
  · intro hc
    obtain ⟨ix, hixlt, hmem⟩ := getD_of_mem_flatten s.buckets j hc
    exact (hwb ix hixlt j hmem).1
  · intro hd
    have hpos : 0 < s.buckets.length := by rw [hlen]; decide
    exact mem_flatten_of_getD s.buckets _ j (Nat.mod_lt _ hpos) (hcov j hd)

theorem find_key_eq (s : UMM) (k : Int) (j : Nat) (h : find s k = some j) :
    keyOf s j = k := by
  have := List.find?_some h
  simpa using this

theorem find_of_present (s : UMM) (k : Int) (hINV : INV s)
    (hpres : ∃ j, j ∈ s.data ∧ keyOf s j = k) :
    ∃ j, find s k = some j ∧ keyOf s j = k := by
  obtain ⟨hlen, _, _, _, hcov, _, _, _, _⟩ := hINV
  obtain ⟨j0, hj0, hk0⟩ := hpres
  have hmem : j0 ∈ s.buckets.getD (hashIndex s k) [] := by
    have := hcov j0 hj0
    rwa [hk0] at this
  have hsome : ((s.buckets.getD (hashIndex s k) []).find?
      (fun j => decide (keyOf s j = k))).isSome :=
    find?_isSome_of_mem_prop _ _ j0 hmem (by simp [hk0])
  obtain ⟨j, hj⟩ := Option.isSome_iff_exists.mp hsome
  exact ⟨j, hj, find_key_eq s k j hj⟩

/-- C2 (amended): over any insert/erase sequence from a default-constructed
multimap in which every erase targets a live element whose key no other live
element shares, the bucket table stays coherent: every stored handle for key
`k` sits in bucket `bucketIndex(k)` and the union of the buckets equals the
live elements (`INV` + the flatten characterisation); such an erase removes
from its bucket precisely the erased element's handle; and `find(key)`
returns a position whose projected key structurally equals `key` (and finds
one for every present key). -/
theorem C2_amended_bucket_coherence :
    (∀ (fuel : Nat) (ops : List UOp) (s : UMM), runOps fuel ops = some s →
      INV s ∧ ∀ j, (j ∈ s.buckets.flatten ↔ j ∈ s.data)) ∧
    (∀ (s : UMM) (i : Nat), INV s → i ∈ s.data →
      (∀ j ∈ s.data, keyOf s j = keyOf s i → j = i) →
      (erase s i).data = s.data.erase i ∧
      (erase s i).buckets = s.buckets.set (hashIndex s (keyOf s i))
        ((s.buckets.getD (hashIndex s (keyOf s i)) []).erase i) ∧
      INV (erase s i)) ∧
    (∀ (s : UMM) (k : Int) (j : Nat), find s k = some j → keyOf s j = k) ∧
    (∀ (s : UMM) (k : Int), INV s → (∃ j, j ∈ s.data ∧ keyOf s j = k) →
      ∃ j, find s k = some j ∧ keyOf s j = k) := by
  refine ⟨?_, ?_, find_key_eq, find_of_present⟩
  · intro fuel ops s h
    have hINV := INV_foldOps ops fuel emptyUMM s INV_emptyUMM h
    exact ⟨hINV, INV_flatten_iff s hINV⟩
  · intro s i hINV hi huniq
    exact INV_erase s i hINV hi huniq

end UMultiMap

/-- C2 (counterexample): in the multimap holding two elements with the same
key `0` (handles `0` and `1`), erasing the element with handle `1` removes
handle `0` — merely a handle with an equal key — from the bucket instead of
handle `1`: afterwards the live elements are `[0]` but the buckets hold
exactly `[1]`, so the union of the buckets is not the live element set, and
`find(0)` returns the erased element's stale handle. -/
theorem C2_counterexample_duplicate_key_erase :
    UMultiMap.dupDemo.map (fun s => s.data) = some [0] ∧
    UMultiMap.dupDemo.map (fun s => s.buckets.flatten) = some [1] ∧
    UMultiMap.dupDemo.map (fun s =>
      decide (1 ∈ s.buckets.flatten ∧ ¬ 1 ∈ s.data ∧
        0 ∈ s.data ∧ ¬ 0 ∈ s.buckets.flatten)) = some true ∧
    UMultiMap.dupDemo.map (fun s => UMultiMap.find s 0) = some (some 1) := by
  refine ⟨rfl, rfl, by decide, rfl⟩

/-- Witness for C2 (amended) at a concrete distinct-key run: its result state
satisfies the coherence invariant, the erase of handle `0` is precise, and
`find(5)` returns the key-5 element. -/
theorem C2_amended_witness :
    UMultiMap.runOps 100 UMultiMap.opsDemo = some UMultiMap.demoState ∧
    UMultiMap.INV UMultiMap.demoState ∧
    (0 ∈ UMultiMap.demoState.buckets.flatten ↔ 0 ∈ UMultiMap.demoState.data) ∧
    ((UMultiMap.erase UMultiMap.demoState 0).data =
        UMultiMap.demoState.data.erase 0 ∧
      (UMultiMap.erase UMultiMap.demoState 0).buckets =
        UMultiMap.demoState.buckets.set
          (UMultiMap.hashIndex UMultiMap.demoState (UMultiMap.keyOf UMultiMap.demoState 0))
          ((UMultiMap.demoState.buckets.getD
            (UMultiMap.hashIndex UMultiMap.demoState (UMultiMap.keyOf UMultiMap.demoState 0))
            []).erase 0) ∧
      UMultiMap.INV (UMultiMap.erase UMultiMap.demoState 0)) ∧
    UMultiMap.find UMultiMap.demoState 5 = some 2 ∧
    UMultiMap.keyOf UMultiMap.demoState 2 = 5 := by
  have hrun : UMultiMap.runOps 100 UMultiMap.opsDemo = some UMultiMap.demoState := by
    rfl
  have hfst := (UMultiMap.C2_amended_bucket_coherence.1 100 UMultiMap.opsDemo
    UMultiMap.demoState hrun)
  have hfind : UMultiMap.find UMultiMap.demoState 5 = some 2 := by rfl
  refine ⟨hrun, hfst.1, hfst.2 0,
    UMultiMap.C2_amended_bucket_coherence.2.1 UMultiMap.demoState 0 hfst.1 (by decide) (by decide),
    hfind,
    UMultiMap.C2_amended_bucket_coherence.2.2.1 UMultiMap.demoState 5 2 hfind⟩

namespace UMultiMap

theorem constructHashGroup_length (s : UMM) (sz : Int) :
    (constructHashGroup s sz).buckets.length =
      (if sz < (MIN_SIZE : Int) then MIN_SIZE else sz.toNat) := by
  simp [constructHashGroup]

theorem min_le_clamp (sz : Int) :
    MIN_SIZE ≤ (if sz < (MIN_SIZE : Int) then MIN_SIZE else sz.toNat) := by
  by_cases h : sz < (MIN_SIZE : Int)
  · rw [if_pos h]
  · rw [if_neg h]
    rw [MIN_SIZE] at h ⊢
    omega

theorem pushToBucket_length (s : UMM) (i : Nat) :
    (pushToBucket s i).buckets.length = s.buckets.length := by
  rw [pushToBucket_buckets, List.length_set]

/-- Bucket-count bounds through the (fuelled) `handleInsert` /
`reconstructHashGroup` recursion: a plain push keeps the count, and any path
through a reconstruction ends at or above the clamped policy minimum. -/
theorem buckets_length_fuel : ∀ (fuel : Nat),
    (∀ (s : UMM) (i : Nat) (s2 : UMM), handleInsert fuel s i = some s2 →
      s2.buckets.length = s.buckets.length ∨ MIN_SIZE ≤ s2.buckets.length) ∧
    (∀ (s : UMM) (sz : Int) (s2 : UMM), reconstructHashGroup fuel s sz = some s2 →
      MIN_SIZE ≤ s2.buckets.length) ∧
    (∀ (s : UMM) (l : List Nat) (s2 : UMM), MIN_SIZE ≤ s.buckets.length →
      placeAll fuel s l = some s2 → MIN_SIZE ≤ s2.buckets.length) := by
  intro fuel
  induction fuel with
  | zero =>
    refine ⟨?_, ?_, ?_⟩
    · intro s i s2 h
      simp [handleInsert] at h
    · intro s sz s2 h
      simp [reconstructHashGroup] at h
    · intro s l s2 hs h
      cases l with
      | nil =>
        rw [placeAll] at h
        injection h with h
        rw [← h]
        exact hs
      | cons i rest => simp [placeAll] at h
  | succ f ih =>
    obtain ⟨ihH, ihR, ihP⟩ := ih
    refine ⟨?_, ?_, ?_⟩
    · intro s i s2 h
      rw [handleInsert] at h
      by_cases hc : 2 * s.data.length < s.buckets.length
      · rw [if_pos hc] at h
        cases hr : reconstructHashGroup f s (-1) with
        | none => rw [hr] at h; cases h
        | some s1 =>
          rw [hr] at h
          simp only [Option.map_some'] at h
          injection h with h
          right
          rw [← h, pushToBucket_length]
          exact ihR s (-1) s1 hr
      · rw [if_neg hc] at h
        injection h with h
        left
        rw [← h, pushToBucket_length]
    · intro s sz s2 h
      rw [reconstructHashGroup] at h
      refine ihP _ _ _ ?_ h
      rw [constructHashGroup_length]
      exact min_le_clamp _
    · intro s l s2 hs h
      cases l with
      | nil =>
        rw [placeAll] at h
        injection h with h
        rw [← h]
        exact hs
      | cons i rest =>
        rw [placeAll] at h
        cases hh : handleInsert f s i with
        | none => rw [hh] at h; cases h
        | some s1 =>
          rw [hh] at h
          have h1 : MIN_SIZE ≤ s1.buckets.length := by
            rcases ihH s i s1 hh with he | hge
            · rw [he]; exact hs
            · exact hge
          exact ihP s1 rest s2 h1 h

theorem insertByPair_length (fuel : Nat) (s : UMM) (k v : Int) (p : UMM × Nat)
    (hs : MIN_SIZE ≤ s.buckets.length) (h : insertByPair fuel s k v = some p) :
    MIN_SIZE ≤ p.1.buckets.length := by
  rw [insertByPair] at h
  cases hh : handleInsert fuel
      { s with nodes := s.nodes ++ [⟨s.fresh, k, v⟩],
               data := s.data ++ [s.fresh], fresh := s.fresh + 1 } s.fresh with
  | none => rw [hh] at h; cases h
  | some s1 =>
    rw [hh] at h
    simp only [Option.map_some'] at h
    injection h with h
    rw [← h]
    rcases (buckets_length_fuel fuel).1 _ _ _ hh with he | hge
    · rw [he]; exact hs
    · exact hge

theorem foldInsert_length :
    ∀ (l : List (Int × Int)) (fuel : Nat) (s0 s2 : UMM),
    MIN_SIZE ≤ s0.buckets.length →
    l.foldlM (fun st kv => (insertByPair fuel st kv.1 kv.2).map (fun p => p.1)) s0 =
      some s2 →
    MIN_SIZE ≤ s2.buckets.length := by
  intro l
  induction l with
  | nil =>
    intro fuel s0 s2 hs h
    rw [List.foldlM_nil] at h
    injection h with h
    rw [← h]
    exact hs
  | cons kv rest ih =>
    intro fuel s0 s2 hs h
    rw [List.foldlM_cons] at h
    cases hx : insertByPair fuel s0 kv.1 kv.2 with
    | none => rw [hx] at h; cases h
    | some p =>
      rw [hx] at h
      simp only [Option.map_some'] at h
      exact ih fuel p.1 s2 (insertByPair_length fuel s0 kv.1 kv.2 p hs hx) h

/-- C9: the bucket table never has fewer than `MIN_SIZE` buckets: every
construction or reconstruction clamps the requested bucket count up to
`MIN_SIZE` before building the buckets, and construction, `clear`, `assign`
and any sequence of inserts and erases keep the count at or above it. -/
theorem C9_bucket_count_min :
    (∀ (s : UMM) (sz : Int),
      (constructHashGroup s sz).buckets.length =
        (if sz < (MIN_SIZE : Int) then MIN_SIZE else sz.toNat) ∧
      MIN_SIZE ≤ (constructHashGroup s sz).buckets.length) ∧
    MIN_SIZE ≤ emptyUMM.buckets.length ∧
    (∀ s : UMM, MIN_SIZE ≤ (clear s).buckets.length) ∧
    (∀ (fuel : Nat) (s : UMM) (k v : Int) (s2 : UMM) (i : Nat),
      MIN_SIZE ≤ s.buckets.length → insertByPair fuel s k v = some (s2, i) →
      MIN_SIZE ≤ s2.buckets.length) ∧
    (∀ (s : UMM) (i : Nat), (erase s i).buckets.length = s.buckets.length) ∧
    (∀ (fuel : Nat) (s : UMM) (l : List (Int × Int)) (s2 : UMM),
      assign fuel s l = some s2 → MIN_SIZE ≤ s2.buckets.length) := by
  refine ⟨?_, by decide, ?_, ?_, ?_, ?_⟩
  · intro s sz
    refine ⟨constructHashGroup_length s sz, ?_⟩
    rw [constructHashGroup_length]
    exact min_le_clamp sz
  · intro s
    rw [clear, constructHashGroup_length]
    exact min_le_clamp _
  · intro fuel s k v s2 i hs h
    exact insertByPair_length fuel s k v (s2, i) hs h
  · intro s i
    rw [erase_buckets_raw, List.length_set]
  · intro fuel s l s2 h
    rw [assign] at h
    refine foldInsert_length l fuel _ s2 ?_ h
    rw [constructHashGroup_length]
    exact min_le_clamp _

end UMultiMap

/-- Witness for C9 at concrete inputs: one insert into a default-constructed
map and one three-element `assign`, both ending with at least `MIN_SIZE`
buckets. -/
theorem C9_witness :
    UMultiMap.MIN_SIZE ≤ UMultiMap.emptyUMM.buckets.length ∧
    UMultiMap.insertByPair 10 UMultiMap.emptyUMM 0 10 = some UMultiMap.insDemo ∧
    UMultiMap.MIN_SIZE ≤ UMultiMap.insDemo.1.buckets.length ∧
    UMultiMap.assign 100 UMultiMap.emptyUMM [(1, 1), (2, 2), (3, 3)] =
      some UMultiMap.assignDemo ∧
    UMultiMap.MIN_SIZE ≤ UMultiMap.assignDemo.buckets.length := by
  have hins : UMultiMap.insertByPair 10 UMultiMap.emptyUMM 0 10 =
      some (UMultiMap.insDemo.1, UMultiMap.insDemo.2) := by rfl
  have hasn : UMultiMap.assign 100 UMultiMap.emptyUMM [(1, 1), (2, 2), (3, 3)] =
      some UMultiMap.assignDemo := by rfl
  exact ⟨by decide, hins, UMultiMap.C9_bucket_count_min.2.2.2.1 10 UMultiMap.emptyUMM 0 10
      UMultiMap.insDemo.1 UMultiMap.insDemo.2 (by decide) hins,
    hasn, UMultiMap.C9_bucket_count_min.2.2.2.2.2 100 UMultiMap.emptyUMM
      [(1, 1), (2, 2), (3, 3)] UMultiMap.assignDemo hasn⟩
